import Mathlib

/-!
# Verification of the Vortex-Backend manifest reconciliation core

Shallow embedding of the manifest reconciliation logic of the Vortex-Backend
repository (`update-extensions.ts`, `add-extension.ts`,
`validate-manifest-entry.ts`, `constants.ts`).

JavaScript objects are modelled as insertion-ordered association lists
`JObj := List (String × JVal)` with unique keys maintained by the operations:
`jget` is property read (absent key reads as `undefined`), `jset` is property
assignment (in-place update of an existing key, append of a new key — exactly
the ECMAScript own-property insertion-order semantics), and `removeNexusMod`
below is the `delete`-loop of the source.  Equality of two `JObj` values is
therefore equivalent to byte-for-byte equality of their `JSON.stringify`
serialisations (stringify drops `undefined`-valued keys, so plain list
equality is a stronger statement).

All `===` comparisons in the source compare a property against a number, a
string, `null` or `undefined`; they are modelled by the dedicated helpers
`jsEqNum`, `jsEqStr`, `jsIsNull`, `jsIsUndef` (structural equality of whole
`JVal`s would not be faithful to JS reference equality on objects).
-/

namespace VortexBackend

/-- JavaScript runtime values, as far as the manifest scripts observe them:
`undef` is `undefined` (also the result of reading an absent property),
`null` is JS `null`, and `obj` keeps the insertion order of keys. -/
inductive JVal where
| undef : JVal
| null : JVal
| str : String → JVal
| num : Int → JVal
| bool : Bool → JVal
| arr : List JVal → JVal
| obj : List (String × JVal) → JVal

/-- A JavaScript object: insertion-ordered key/value pairs. -/
abbrev JObj : Type := List (String × JVal)

/-- `v === n` for a number literal/variable `n`. -/
def jsEqNum (v : JVal) (n : Int) : Bool :=
match v with
| .num m => m = n
| _ => false

/-- `v === s` for a string `s`. -/
def jsEqStr (v : JVal) (s : String) : Bool :=
match v with
| .str t => t = s
| _ => false

/-- `v === null`. -/
def jsIsNull (v : JVal) : Bool :=
match v with
| .null => true
| _ => false

/-- `v === undefined`. -/
def jsIsUndef (v : JVal) : Bool :=
match v with
| .undef => true
| _ => false

/-- Property read, `o[k]`; an absent key reads as `undefined`. -/
def jget : JObj → String → JVal
| [], _ => .undef
| (k', v') :: rest, k => if k' = k then v' else jget rest k

/-- Property assignment, `o[k] = v`: replaces the value of an existing key in
place, otherwise appends the key at the end (ECMAScript insertion order). -/
def jset : JObj → String → JVal → JObj
| [], k, v => [(k, v)]
| (k', v') :: rest, k, v => if k' = k then (k, v) :: rest else (k', v') :: jset rest k v

/-- `Object.prototype.hasOwnProperty`-style key test. -/
def hasKey : JObj → String → Bool
| [], _ => false
| (k', _) :: rest, k => if k' = k then true else hasKey rest k

/-- `Object.keys`, in insertion order. -/
def jkeys (o : JObj) : List String := o.map Prod.fst

/-- Real JS objects never carry a duplicate key; all operations preserve
this invariant. -/
def KeysNodup (o : JObj) : Prop := (jkeys o).Nodup

/-- A sequence of property assignments applied in order
(`Object.assign` with a literal source, or a run of `o.k = v` statements). -/
def applyAssigns (as : List (String × JVal)) (o : JObj) : JObj :=
List.foldl (fun o kv => jset o kv.1 kv.2) o as

/-- The value the key `k` holds after the assignments `as` run over a start
value `d`: the value of the last assignment to `k`, else `d`. -/
def lastVal (as : List (String × JVal)) (k : String) (d : JVal) : JVal :=
List.foldl (fun acc kv => if kv.1 = k then kv.2 else acc) d as

/-- Mutate the first element of a list satisfying `p` in place
(the object identity of `Array.prototype.find` plus in-place mutation). -/
def modifyFirst (p : JObj → Bool) (f : JObj → JObj) : List JObj → List JObj
| [] => []
| e :: rest => if p e then f e :: rest else e :: modifyFirst p f rest

/-!
## Model of the `semver` npm dependency

Modelled from the spec: the `semver` package is an external collaborator
("a file is retained … if either bound of the compatibility window satisfies
the parsed constraint").  The model implements `semver.satisfies` for the
range grammar reachable from a `VERSION_MATCH_REGEX` capture: comparators
`>= > <= < = ^ ~ ~>` (also when separated from their operand by spaces,
which the library's trim passes re-join), bare full, partial and `x`/`X`
wildcard versions with a single optional leading `v`, plus whole-range
hyphen ranges (a `-` cannot occur in a capture, but the library supports
them).  A token outside this grammar makes the whole range invalid, and, as
in the library, `satisfies` returns `false` when the range (or the version)
does not parse.  Prerelease/build suffixes, `||` alternatives, loose mode
and the stacked `[v=]*` prefixes of the x-range grammar are not modelled
(`-` and `|` cannot occur in a capture; a capture exercising the stacked
prefixes, such as `vv1.2`, is treated as invalid rather than parsed).
-/

namespace Semver

/-- A full semantic version `major.minor.patch`. -/
structure SV where
  major : Nat
  minor : Nat
  patch : Nat
deriving DecidableEq

/-- Strict semver precedence order. -/
def svLtB (a b : SV) : Bool :=
  decide (a.major < b.major) ||
    (a.major == b.major &&
      (decide (a.minor < b.minor) || (a.minor == b.minor && decide (a.patch < b.patch))))

def svLeB (a b : SV) : Bool := svLtB a b || a == b

/-- Comparator operators after desugaring. -/
inductive COp where
| ge : COp
| gt : COp
| le : COp
| lt : COp
| eqc : COp

structure Comparator where
  op : COp
  ver : SV

def testCmp (v : SV) (c : Comparator) : Bool :=
  match c.op with
  | .ge => svLeB c.ver v
  | .gt => svLtB c.ver v
  | .le => svLeB v c.ver
  | .lt => svLtB v c.ver
  | .eqc => v == c.ver

/-- Split a character list at every occurrence of `sep`, keeping empty
segments (the behaviour of `String.splitOn` with a one-character
separator). -/
def splitChars (sep : Char) : List Char → List (List Char)
| [] => [[]]
| c :: rest =>
  match splitChars sep rest with
  | [] => [[]]
  | cur :: others => if c == sep then [] :: cur :: others else (c :: cur) :: others

/-- A `semver` numeric identifier, `0|[1-9]\d*` (no leading zeros). -/
def parseNatDigits (cs : List Char) : Option Nat :=
  match cs with
  | [] => none
  | ['0'] => some 0
  | c :: _ =>
    if c == '0' then none
    else if cs.all Char.isDigit then
      some (cs.foldl (fun n d => n * 10 + (d.toNat - 48)) 0)
    else none

/-- One dot-separated range component: numeric, or an `x`/`X`/`*` wildcard
(the regex's `XRANGEIDENTIFIER`). -/
inductive XComp where
| num : Nat → XComp
| star : XComp

def parseXComp (cs : List Char) : Option XComp :=
  if cs == ['x'] || cs == ['X'] || cs == ['*'] then some .star
  else (parseNatDigits cs).map .num

def parseComps : List (List Char) → Option (List XComp)
| [] => some []
| c :: rest =>
  match parseXComp c, parseComps rest with
  | some x, some xs => some (x :: xs)
  | _, _ => none

/-- A possibly partial version as written in a range.  A missing component
and a wildcard one behave alike in the desugaring (`1` ≡ `1.x` ≡ `1.x.0`),
and a wildcard in the major slot (`px`) stands for any version at all. -/
inductive PV where
| px : PV
| p1 : Nat → PV
| p2 : Nat → Nat → PV
| p3 : Nat → Nat → Nat → PV

/-- Interpret one to three components, truncating at the first wildcard
(`replaceXRange` ignores everything after an `x`). -/
def interpComps : List XComp → Option PV
| [.star] => some .px
| [.star, _] => some .px
| [.star, _, _] => some .px
| [.num a] => some (.p1 a)
| [.num a, .star] => some (.p1 a)
| [.num a, .star, _] => some (.p1 a)
| [.num a, .num b] => some (.p2 a b)
| [.num a, .num b, .star] => some (.p2 a b)
| [.num a, .num b, .num c] => some (.p3 a b c)
| _ => none

/-- Parse a (possibly partial, possibly wildcard) version, with the single
optional leading `v` of the version grammar. -/
def parsePartial (cs : List Char) : Option PV :=
  let body := match cs with
    | 'v' :: rest => rest
    | _ => cs
  match parseComps (splitChars '.' body) with
  | some xs => interpComps xs
  | none => none

def parseFull (cs : List Char) : Option SV :=
  match parsePartial cs with
  | some (.p3 x y z) => some ⟨x, y, z⟩
  | _ => none

/-- Fill missing components with zero (lower bound of a partial; the `px`
case is dead, every desugaring below handles the full wildcard first). -/
def fillZero : PV → SV
| .px => ⟨0, 0, 0⟩
| .p1 M => ⟨M, 0, 0⟩
| .p2 M m => ⟨M, m, 0⟩
| .p3 M m p => ⟨M, m, p⟩

/-- First version above every completion of a strictly partial version
(again, `px` never reaches this). -/
def bumpPartial : PV → SV
| .px => ⟨0, 0, 0⟩
| .p1 M => ⟨M + 1, 0, 0⟩
| .p2 M m => ⟨M, m + 1, 0⟩
| .p3 M m p => ⟨M, m, p⟩

/-- A bare (or `=`-prefixed) version: exact for a full version, an
x-range `[lower, bump)` for a partial one, anything for a full wildcard
(the library's `*` comparator). -/
def xRange : PV → List Comparator
| .px => []
| .p3 M m p => [⟨.eqc, ⟨M, m, p⟩⟩]
| pv => [⟨.ge, fillZero pv⟩, ⟨.lt, bumpPartial pv⟩]

def caretCmps : PV → List Comparator
| .px => []
| .p3 M m p =>
  if M > 0 then [⟨.ge, ⟨M, m, p⟩⟩, ⟨.lt, ⟨M + 1, 0, 0⟩⟩]
  else if m > 0 then [⟨.ge, ⟨0, m, p⟩⟩, ⟨.lt, ⟨0, m + 1, 0⟩⟩]
  else [⟨.ge, ⟨0, 0, p⟩⟩, ⟨.lt, ⟨0, 0, p + 1⟩⟩]
| .p2 M m =>
  if M > 0 then [⟨.ge, ⟨M, m, 0⟩⟩, ⟨.lt, ⟨M + 1, 0, 0⟩⟩]
  else [⟨.ge, ⟨0, m, 0⟩⟩, ⟨.lt, ⟨0, m + 1, 0⟩⟩]
| .p1 M => [⟨.ge, ⟨M, 0, 0⟩⟩, ⟨.lt, ⟨M + 1, 0, 0⟩⟩]

def tildeCmps : PV → List Comparator
| .px => []
| .p3 M m p => [⟨.ge, ⟨M, m, p⟩⟩, ⟨.lt, ⟨M, m + 1, 0⟩⟩]
| .p2 M m => [⟨.ge, ⟨M, m, 0⟩⟩, ⟨.lt, ⟨M, m + 1, 0⟩⟩]
| .p1 M => [⟨.ge, ⟨M, 0, 0⟩⟩, ⟨.lt, ⟨M + 1, 0, 0⟩⟩]

/-- `<0.0.0-0`, the comparator the library substitutes for `>x`/`<x`:
satisfied by no version. -/
def neverCmp : List Comparator := [⟨.lt, ⟨0, 0, 0⟩⟩]

def opCmps (op : COp) (pv : PV) : List Comparator :=
  match op, pv with
  | .ge, .px => []
  | .gt, .px => neverCmp
  | .le, .px => []
  | .lt, .px => neverCmp
  | .ge, pv => [⟨.ge, fillZero pv⟩]
  | .gt, .p3 M m p => [⟨.gt, ⟨M, m, p⟩⟩]
  | .gt, pv => [⟨.ge, bumpPartial pv⟩]
  | .lt, pv => [⟨.lt, fillZero pv⟩]
  | .le, .p3 M m p => [⟨.le, ⟨M, m, p⟩⟩]
  | .le, pv => [⟨.lt, bumpPartial pv⟩]
  | .eqc, pv => xRange pv

/-- One range token, dispatched on its operator characters in the same
priority order as the library's comparator parsing (`~>` is the tilde's
alias in the `TILDE` regex). -/
def desugarToken (t : List Char) : Option (List Comparator) :=
  match t with
  | '>' :: '=' :: rest => (parsePartial rest).map (opCmps .ge)
  | '<' :: '=' :: rest => (parsePartial rest).map (opCmps .le)
  | '>' :: rest => (parsePartial rest).map (opCmps .gt)
  | '<' :: rest => (parsePartial rest).map (opCmps .lt)
  | '=' :: rest => (parsePartial rest).map xRange
  | '^' :: rest => (parsePartial rest).map caretCmps
  | '~' :: '>' :: rest => (parsePartial rest).map tildeCmps
  | '~' :: rest => (parsePartial rest).map tildeCmps
  | _ => (parsePartial t).map xRange

def parseRangeTokens : List (List Char) → Option (List Comparator)
| [] => some []
| t :: rest =>
  match desugarToken t, parseRangeTokens rest with
  | some cs, some tail => some (cs ++ tail)
  | _, _ => none

/-- `lo - hi` (`hyphenReplace`): `>=` the zero-filled lower bound, and `<=`
the upper bound when full or `<` its bump when partial; a full-wildcard end
drops that bound. -/
def hyphenCmps (pa pb : PV) : List Comparator :=
  (match pa with
   | .px => []
   | pv => [⟨.ge, fillZero pv⟩]) ++
  (match pb with
   | .px => []
   | .p3 M m p => [⟨.le, ⟨M, m, p⟩⟩]
   | pv => [⟨.lt, bumpPartial pv⟩])

/-- A whole comparator set.  The hyphen form applies only to the entire
range (`HYPHENRANGE` is anchored at both ends); otherwise every token
desugars separately. -/
def parseRange (tokens : List (List Char)) : Option (List Comparator) :=
  match tokens with
  | [a, b, c] =>
    if b == ['-'] then
      match parsePartial a, parsePartial c with
      | some pa, some pc => some (hyphenCmps pa pc)
      | _, _ => none
    else parseRangeTokens [a, b, c]
  | ts => parseRangeTokens ts

/-- The operator-only tokens that the library's `COMPARATORTRIM`,
`TILDETRIM` and `CARETTRIM` passes re-join with the following operand when
separated from it by whitespace. -/
def isOpToken (t : List Char) : Bool :=
  t == ['>'] || t == ['<'] || t == ['>', '='] || t == ['<', '='] ||
    t == ['='] || t == ['~'] || t == ['~', '>'] || t == ['^']

/-- Re-join each operator-only token with its following token.  (A trailing
dangling operator, like an operator whose re-joined operand fails to parse,
yields an invalid comparator either way, as in the library.) -/
def mergeOpTokens : List (List Char) → List (List Char)
| [] => []
| [t] => [t]
| t :: u :: rest =>
  if isOpToken t then (t ++ u) :: mergeOpTokens rest
  else t :: mergeOpTokens (u :: rest)

def tokenize (range : List Char) : List (List Char) :=
  mergeOpTokens ((splitChars ' ' range).filter (fun t => !t.isEmpty))

/-- `semver.satisfies(version, range)`: every comparator of the (single)
comparator set must hold; an invalid range or version satisfies nothing. -/
def satisfies (version range : String) : Bool :=
  match parseFull version.data, parseRange (tokenize range.data) with
  | some v, some cs => cs.all (testCmp v)
  | _, _ => false

end Semver

/-!
## HTML-entity decoding and the `requires vortex` regex

`constants.ts`: `HTML_REGEX = /&[lg]t;/g` with `htmlMap` `&gt; ↦ >`,
`&lt; ↦ <`, and `VERSION_MATCH_REGEX = /^requires vortex ([><=-^~0-9. ]*[0-9])/i`.
-/

/-- `description.replace(HTML_REGEX, i => htmlMap[i])`: leftmost,
non-overlapping global replacement of `&gt;`/`&lt;`. -/
def htmlDecodeList : List Char → List Char
| '&' :: 'g' :: 't' :: ';' :: rest => '>' :: htmlDecodeList rest
| '&' :: 'l' :: 't' :: ';' :: rest => '<' :: htmlDecodeList rest
| c :: rest => c :: htmlDecodeList rest
| [] => []

def htmlDecode (s : String) : String := String.mk (htmlDecodeList s.data)

/-- The character class `[><=-^~0-9. ]` of `VERSION_MATCH_REGEX` under its
`i` flag.  In ECMAScript class syntax `=-^` is a character range
(U+003D–U+005E), not a literal hyphen, so with the literal `>` and `<` the
class covers the contiguous block U+003C–U+005E (`< = > ? @ A`–`Z [ \ ] ^`)
besides `~`, `.`, the space and the digits; case-insensitive
canonicalisation maps `a`–`z` onto `A`–`Z` (and, by the ASCII-boundary rule,
maps no character above U+007F into this all-ASCII set), so exactly the
lowercase letters match as well.  In particular there is no `-` in the
class, while every letter is in it. -/
def isVerChar (c : Char) : Bool :=
  c == '~' || c == '.' || c == ' ' || c.isDigit ||
    (decide ('<'.toNat ≤ c.toNat) && decide (c.toNat ≤ '^'.toNat)) ||
    (decide ('a'.toNat ≤ c.toNat) && decide (c.toNat ≤ 'z'.toNat))

/-- Greedy `[class]*` followed by `[0-9]`: the capture is the maximal run of
class characters truncated after its last digit (no match without a digit). -/
def dropAfterLastDigit (cs : List Char) : Option (List Char) :=
  let r := cs.reverse.dropWhile (fun c => !c.isDigit)
  if r.isEmpty then none else some r.reverse

/-- The anchored case-insensitive match
`^requires vortex ([><=-^~0-9. ]*[0-9])`, returning capture group 1. -/
def matchVersionRegex (s : String) : Option String :=
  let cs := s.data
  if (cs.take 16).map Char.toLower = "requires vortex ".data then
    match dropAfterLastDigit ((cs.drop 16).takeWhile isVerChar) with
    | some run => some (String.mk run)
    | none => none
  else none

/-- `description.replace(HTML_REGEX, …).match(VERSION_MATCH_REGEX)` reduced to
its capture group, as used by both the file filter and
`dependenciesFromDescription`. -/
def vortexRequirementOf (description : String) : Option String :=
  matchVersionRegex (htmlDecode description)

/-!
## Data model (`types.ts`, nexus API shapes) and `constants.ts`
-/

/-- `ExtensionType = 'game' | 'translation' | 'theme'` (`types.ts`). -/
inductive ExtensionType where
| game : ExtensionType
| translation : ExtensionType
| theme : ExtensionType
deriving DecidableEq

def extTypeStr : ExtensionType → String
| .game => "game"
| .translation => "translation"
| .theme => "theme"

/-- `CATEGORIES = {4: 'game', 7: 'translation', 13: 'theme'}`. -/
def CATEGORIES (id : Int) : Option ExtensionType :=
  if id = 4 then some .game
  else if id = 7 then some .translation
  else if id = 13 then some .theme
  else none

/-- The fields of `IModInfo` the scripts read.  `picture_url`, `summary` and
`description` are nullable on the API (`none` models JS `null`). -/
structure ModInfo where
  mod_id : Int
  name : String
  author : String
  uploaded_by : String
  summary : Option String
  description : Option String
  picture_url : Option String
  status : String
  category_id : Int
  mod_unique_downloads : Int
  endorsement_count : Int

/-- The fields of `IFileInfo` the scripts read. -/
structure FileInfo where
  file_id : Int
  category_id : Int
  version : String
  uploaded_timestamp : Int
  description : String

/-- One element of `getRecentlyUpdatedMods` (`IUpdateEntry`); the two
timestamps are unix seconds. -/
structure UpdateEntry where
  mod_id : Int
  latest_file_update : Int
  latest_mod_activity : Int

/-- The Nexus marketplace collaborator as seen by the refresh flow; fetch
failure of `getModInfo` is `none` (`getModFiles` failing would crash the
whole run and is out of scope).  `recent` is `getRecentlyUpdatedMods`
per period string. -/
structure Upstream where
  modInfo : Int → Option ModInfo
  modFiles : Int → List FileInfo
  recent : String → List UpdateEntry

/-- The API returns the queried mod's own info: `mod_id` echoes the id. -/
def UpstreamWF (u : Upstream) : Prop :=
  ∀ c mi, u.modInfo c = some mi → mi.mod_id = c

/-!
## Entry validator / normalizer (`validate-manifest-entry.ts`)
-/

/-- JS `typeof`. -/
def jsTypeof : JVal → String
| .undef => "undefined"
| .null => "object"
| .str _ => "string"
| .num _ => "number"
| .bool _ => "boolean"
| .arr _ => "object"
| .obj _ => "object"

/-- JS falsiness (`!v`). -/
def jsFalsy : JVal → Bool
| .undef => true
| .null => true
| .str s => s.isEmpty
| .num n => n == 0
| .bool b => !b
| .arr _ => false
| .obj _ => false

/-- Property access on an arbitrary value (`v.short`): `undefined` unless the
value is an object carrying the key. -/
def propGet (v : JVal) (k : String) : JVal :=
  match v with
  | .obj fs => jget fs k
  | _ => .undef

def isArrayB : JVal → Bool
| .arr _ => true
| _ => false

/-- `validateManifestEntry`: all checks run, errors collected in source
order; `valid` iff no error. -/
def validateManifestEntry (entry : JObj) : Bool × List String :=
  let errors :=
    (if jsTypeof (jget entry "modId") != "number" then ["modId must be a number"] else []) ++
    (if jsTypeof (jget entry "fileId") != "number" then ["fileId must be a number"] else []) ++
    (if jsTypeof (jget entry "author") != "string" then ["author must be a string"] else []) ++
    (if jsTypeof (jget entry "uploader") != "string" then ["uploader must be a string"] else []) ++
    (if jsFalsy (jget entry "description") || jsTypeof (jget entry "description") != "object" then
      ["description must be an object"]
    else
      (if jsTypeof (propGet (jget entry "description") "short") != "string" then
        ["description.short must be a string"] else []) ++
      (if jsTypeof (propGet (jget entry "description") "long") != "string" then
        ["description.long must be a string"] else [])) ++
    (if jsTypeof (jget entry "downloads") != "number" then ["downloads must be a number"] else []) ++
    (if jsTypeof (jget entry "endorsements") != "number" then ["endorsements must be a number"] else []) ++
    (if !(jsIsUndef (jget entry "image")) && jsTypeof (jget entry "image") != "string" then
      ["image must be a string or undefined"] else []) ++
    (if jsTypeof (jget entry "name") != "string" then ["name must be a string"] else []) ++
    (if jsTypeof (jget entry "timestamp") != "number" then ["timestamp must be a number"] else []) ++
    (if !(isArrayB (jget entry "tags")) then ["tags must be an array"] else []) ++
    (if jsTypeof (jget entry "version") != "string" then ["version must be a string"] else []) ++
    (if !(jsIsNull (jget entry "type")) && jsTypeof (jget entry "type") != "string" then
      ["type must be a string or null"] else []) ++
    (if !(jsIsUndef (jget entry "gameName")) && jsTypeof (jget entry "gameName") != "string" then
      ["gameName must be a string or undefined"] else []) ++
    (if jsEqStr (jget entry "type") "game" && jsFalsy (jget entry "gameName") then
      ["game extensions must have a gameName"] else [])
  (errors.isEmpty, errors)

def getExpectedFieldOrder : List String :=
  ["modId", "fileId", "author", "uploader", "description", "downloads",
   "endorsements", "image", "name", "timestamp", "tags", "version", "type", "gameName"]

/-- The entry rebuilt from a field list, keeping only defined fields
(the loop body of `normalizeManifestEntry`). -/
def normFields (e : JObj) (fs : List String) : JObj :=
  fs.filterMap fun f => if jsIsUndef (jget e f) then none else some (f, jget e f)

/-- `normalizeManifestEntry`: re-emit, in canonical order, exactly the
canonical fields whose value is not `undefined`. -/
def normalizeManifestEntry (entry : JObj) : JObj :=
  normFields entry getExpectedFieldOrder

/-!
## Refresh flow (`update-extensions.ts`, class `Driver`)
-/

/-- JS `x ?? ''` for the nullable summary/description strings. -/
def descJ (mi : ModInfo) : JVal :=
  .obj [("short", .str (mi.summary.getD "")), ("long", .str (mi.description.getD ""))]

/-- A nullable API string as a JS value. -/
def jOfOptStr : Option String → JVal
| some s => .str s
| none => .null

/-- `dependenciesFromDescription(existing, description)`.  When a
`requires vortex` constraint is found: an `undefined` map is replaced by a
fresh `{}` and `vortex` is set.  (If `existing` were a non-object primitive
the JS property write would be silently dropped in sloppy mode — modelled as
returning the value unchanged; a `null` map would throw, which no writer of
the manifest produces.) -/
def dependenciesFromDescription (existing : JVal) (description : String) : JVal :=
  match vortexRequirementOf description with
  | none => existing
  | some req =>
    match existing with
    | .undef => .obj [("vortex", .str req)]
    | .obj fs => .obj (jset fs "vortex" (.str req))
    | other => other

/-- `makeExtension(modInfo, file, type, extraInfo)`: the object literal, keys
in source order.  `type`, `gameName` and `language` are the runtime values
taken from the existing entry (possibly `undefined`). -/
def makeExtension (mi : ModInfo) (f : FileInfo) (type gameName language : JVal) :
    List (String × JVal) :=
  [("modId", .num mi.mod_id),
   ("fileId", .num f.file_id),
   ("author", .str mi.author),
   ("uploader", .str mi.uploaded_by),
   ("description", descJ mi),
   ("downloads", .num mi.mod_unique_downloads),
   ("endorsements", .num mi.endorsement_count),
   ("image", jOfOptStr mi.picture_url),
   ("name", .str mi.name),
   ("timestamp", .num f.uploaded_timestamp),
   ("tags", .arr []),
   ("version", .str f.version),
   ("type", type),
   ("gameName", gameName),
   ("language", language)]

/-- The assignments the update path runs over an existing entry:
`Object.assign(existing, makeExtension(…))` followed by the explicit field
updates, in source order.  The two mid-pipeline reads resolve to constants:
`modInfo.picture_url ?? existing.image` reads the image just assigned by
`makeExtension` (so it equals `picture_url` whether or not it is null), and
`existing.dependencies` is untouched by the earlier assignments (`dep` is the
pre-update value). -/
def updateAssigns (mi : ModInfo) (f : FileInfo) (type gameName language dep : JVal) :
    List (String × JVal) :=
  makeExtension mi f type gameName language ++
  [("version", .str f.version),
   ("description", descJ mi),
   ("image", jOfOptStr mi.picture_url),
   ("name", .str mi.name),
   ("uploader", .str mi.uploaded_by),
   ("type", type),
   ("timestamp", .num f.uploaded_timestamp),
   ("dependencies", dependenciesFromDescription dep f.description)]

/-- The `existing !== undefined` branch of `processNexusMods`: set `fileId`
when the latest file differs, and rewrite the descriptive fields when
`updated || existing.name !== undefined`. -/
def updateEntry (mi : ModInfo) (f : FileInfo) (e : JObj) : JObj :=
  let type := jget e "type"
  let gameName := jget e "gameName"
  let language := jget e "language"
  let dep := jget e "dependencies"
  let updated := !(jsEqNum (jget e "fileId") f.file_id)
  let e1 := if updated then jset e "fileId" (.num f.file_id) else e
  if updated || !(jsIsUndef (jget e "name")) then
    applyAssigns (updateAssigns mi f type gameName language dep) e1
  else e1

/-- `removeNexusMod`: delete every key other than `modId`/`fileId`. -/
def removeNexusMod (entry : JObj) : JObj :=
  entry.filter fun p => p.1 == "modId" || p.1 == "fileId"

/-- The per-file version filter with an explicit compatibility window. -/
def fileCompatWith (lo hi : String) (f : FileInfo) : Bool :=
  match vortexRequirementOf f.description with
  | none => true
  | some req => Semver.satisfies lo req || Semver.satisfies hi req

def refVersionLow : String := "1.8.0"

def refVersionHigh : String := "1.8.999"

/-- The filter as used by the refresh flow (hard-coded window). -/
def fileCompat : FileInfo → Bool := fileCompatWith refVersionLow refVersionHigh

/-- `filteredFiles.sort((lhs, rhs) => rhs.file_id - lhs.file_id)[0]`: the
head of a stable descending sort, i.e. the first element attaining the
greatest `file_id`. -/
def latestFile (f0 : FileInfo) (fs : List FileInfo) : FileInfo :=
  fs.foldl (fun acc f => if acc.file_id < f.file_id then f else acc) f0

/-- `ext.modId === entry` (`modId` is a number per `types.ts`). -/
def matchMod (c : Int) (e : JObj) : Bool := jsEqNum (jget e "modId") c

def mainFilesOf (u : Upstream) (c : Int) : List FileInfo :=
  (u.modFiles c).filter fun f => f.category_id == 1

def filteredFilesOf (u : Upstream) (c : Int) : List FileInfo :=
  (mainFilesOf u c).filter fileCompat

/-- Per-candidate outcome of the refresh flow (spec §3 "Outcome"),
used only for the end-of-run notification. -/
inductive ROutcome where
| fetchFailed : ROutcome
| noPicture : ROutcome
| removed : ROutcome
| notCategory : ROutcome
| removedNoFile : ROutcome
| updated : ROutcome
| unchanged : ROutcome
| added : ROutcome
deriving DecidableEq

/-- One candidate id of the `processNexusMods` loop: the new state of
`this.mState.extensions` plus the outcome.  In the `added` branch the source
only records `modInfo` for the Slack summary (`addedExtensions.push`);
the `makeExtension`/`push` block is commented out. -/
def nexusStepO (u : Upstream) (c : Int) (s : List JObj) : List JObj × ROutcome :=
  match u.modInfo c with
  | none => (s, .fetchFailed)
  | some mi =>
    if mi.picture_url = none then (s, .noPicture)
    else if mi.status ≠ "published" then
      match s.find? (matchMod c) with
      | some _ => (modifyFirst (matchMod c) removeNexusMod s, .removed)
      | none => (s, .removed)
    else
      match CATEGORIES mi.category_id with
      | none => (s, .notCategory)
      | some _ =>
        match filteredFilesOf u c with
        | [] =>
          match s.find? (matchMod c) with
          | some _ => (modifyFirst (matchMod c) removeNexusMod s, .removedNoFile)
          | none => (s, .removedNoFile)
        | f0 :: fs =>
          let latest := latestFile f0 fs
          match s.find? (matchMod c) with
          | some e =>
            (modifyFirst (matchMod c) (updateEntry mi latest) s,
             if !(jsEqNum (jget e "fileId") latest.file_id) then .updated else .unchanged)
          | none => (s, .added)

def nexusStep (u : Upstream) (c : Int) (s : List JObj) : List JObj :=
  (nexusStepO u c s).1

/-- `extensions.filter(e => e.modId !== undefined).map(e => e.modId)`
(`modId` is a number per `types.ts`). -/
def knownMods (s : List JObj) : List Int :=
  s.filterMap fun e =>
    match jget e "modId" with
    | .num n => some n
    | _ => none

/-- `[...new Set(l)]`: first-occurrence de-duplication. -/
def dedupFirst (l : List Int) : List Int :=
  l.foldl (fun acc x => if x ∈ acc then acc else acc ++ [x]) []

def ONE_DAY : Int := 1000 * 60 * 60 * 24

/-- `getUpdatesSince`: range chosen from the elapsed time, then the result
filtered against the last-update timestamp (milliseconds vs unix seconds;
integer-valued API timestamps make floor division equivalent to the JS float
comparison), reduced to the mod ids as in `processNexusMods`. -/
def getUpdatesSince (u : Upstream) (now timestamp : Int) : List Int :=
  let elapsed := now - timestamp
  let range := if elapsed ≤ ONE_DAY then "1d"
    else if elapsed ≤ ONE_DAY * 7 then "1w"
    else "1m"
  ((u.recent range).filter fun e =>
      decide (timestamp / 1000 < e.latest_file_update) ||
      decide (timestamp / 1000 < e.latest_mod_activity)).map (·.mod_id)

/-!
## Bundled games (`processGames`)
-/

/-- The parsed `info.json` of one `vortex-games` subfolder. -/
structure GameInfoJson where
  id : Option String
  name : String
  author : String
  description : String
  version : String

structure GameDesc where
  folder : String
  info : GameInfoJson

def GAME_EXCLUSIONLIST : List String := ["game-subnautica", "game-subnauticabelowzero"]

/-- `readdir` filtered to `game-*` folders minus the exclusion list. -/
def gameListOf (dir : List GameDesc) : List GameDesc :=
  dir.filter fun gd =>
    List.isPrefixOf "game-".data gd.folder.data && !(GAME_EXCLUSIONLIST.contains gd.folder)

/-- `info.id || gameId` (`||` catches the empty string). -/
def effId (gd : GameDesc) : String :=
  match gd.info.id with
  | some s => if s.data.isEmpty then gd.folder else s
  | none => gd.folder

/-- `ext.modId === undefined && ext.id === (info.id || gameId)`. -/
def matchGame (eff : String) (e : JObj) : Bool :=
  jsIsUndef (jget e "modId") && jsEqStr (jget e "id") eff

/-- The object literal pushed for a game extension that is not yet in the
manifest. -/
def gameTemplate (gd : GameDesc) : JObj :=
  [("image", .str ("https://raw.githubusercontent.com/Nexus-Mods/vortex-games/release/"
      ++ gd.folder ++ "/gameart.jpg")),
   ("name", .str gd.info.name),
   ("type", .str "game"),
   ("github", .str "Nexus-Mods/vortex-games"),
   ("githubRawPath", .str gd.folder)]

/-- The field updates `processGames` runs on the (found or created) entry,
in source order; `info.name.slice(6)` strips the `"Game: "` naming
convention. -/
def gameAssigns (gd : GameDesc) : List (String × JVal) :=
  [("id", .str (effId gd)),
   ("hide", .bool true),
   ("author", .str gd.info.author),
   ("gameName", .str (gd.info.name.drop 6)),
   ("description", .obj [("short", .str gd.info.description), ("long", .str gd.info.description)]),
   ("version", .str gd.info.version)]

/-- The net effect of one `processGames` iteration on the entry it touches. -/
def gameApply (gd : GameDesc) : JObj → JObj := applyAssigns (gameAssigns gd)

/-- One folder of the `processGames` loop. -/
def gameStep (gd : GameDesc) (s : List JObj) : List JObj :=
  match s.find? (matchGame (effId gd)) with
  | some _ => modifyFirst (matchGame (effId gd)) (gameApply gd) s
  | none => s ++ [gameApply gd (gameTemplate gd)]

/-- `IExtensionManifest`. -/
structure Manifest where
  last_updated : Int
  extensions : List JObj

/-- `Driver.process()` of the refresh flow: `processNexusMods` (candidates =
recently-updated ids ∪ known ids, de-duplicated; the concurrent per-id fan-out
mutates the entry list only in the synchronous tail of each fetch and is
serialised here, spec §5), then `processGames`, then the timestamp update.
The `UPDATE_CHECK_SINCE` environment override is not modelled. -/
def runRefresh (u : Upstream) (gamesDir : List GameDesc) (now : Int) (m : Manifest) : Manifest :=
  let updates := getUpdatesSince u now m.last_updated
  let combined := dedupFirst (updates ++ knownMods m.extensions)
  let s1 := combined.foldl (fun s c => nexusStep u c s) m.extensions
  let s2 := (gameListOf gamesDir).foldl (fun s gd => gameStep gd s) s1
  { last_updated := now, extensions := s2 }

/-!
## Single-item add flow (`add-extension.ts`)
-/

/-- `IGameInfo` as read by the add flow. -/
structure GameInfo where
  id : Int
  name : String
  domain_name : String

structure AddUpstream where
  modInfo : Int → Option ModInfo
  modFiles : Int → List FileInfo
  gameInfo : String → Option GameInfo

/-- The environment inputs of the add workflow; empty string means the
variable is unset. -/
structure AddEnv where
  modid : Int
  gamedomain : String
  languageCode : String

/-- Every `process.exit(1)` of the add flow: the process stops before the
manifest is pushed to or written. -/
inductive AddErr where
| fetchFailed : AddErr
| notPublished : AddErr
| notCategory : AddErr
| noMainFile : AddErr
| gameInfoFailed : AddErr
| noLanguageCode : AddErr
| alreadyExists : AddErr
deriving DecidableEq

/-- `getManifestEntryTemplate`: the literal, keys in source order. -/
def getManifestEntryTemplate (mi : ModInfo) (f : FileInfo) (t : ExtensionType) : JObj :=
  [("modId", .num mi.mod_id),
   ("fileId", .num f.file_id),
   ("author", .str mi.author),
   ("uploader", .str mi.uploaded_by),
   ("description", descJ mi),
   ("downloads", .num mi.mod_unique_downloads),
   ("endorsements", .num mi.endorsement_count),
   ("image", jOfOptStr mi.picture_url),
   ("name", .str mi.name),
   ("timestamp", .num f.uploaded_timestamp),
   ("tags", .arr []),
   ("version", .str f.version),
   ("type", .str (extTypeStr t))]

/-- `createManifestEntryForTool`: `extension.type = null`. -/
def createManifestEntryForTool (mi : ModInfo) (f : FileInfo) (t : ExtensionType) : JObj :=
  jset (getManifestEntryTemplate mi f t) "type" .null

def createManifestEntryForGame (mi : ModInfo) (f : FileInfo) (t : ExtensionType)
    (gi : GameInfo) : JObj :=
  let e := getManifestEntryTemplate mi f t
  let e := jset e "image" (match mi.picture_url with
    | some p => .str p
    | none => .str ("https://staticdelivery.nexusmods.com/images/games/4_3/tile_"
        ++ toString gi.id ++ ".jpg"))
  let e := jset e "gameName" (.str gi.name)
  jset e "gameId" (.str gi.domain_name)

def createManifestEntryForTheme (mi : ModInfo) (f : FileInfo) (t : ExtensionType) : JObj :=
  getManifestEntryTemplate mi f t

def createManifestEntryForTranslation (mi : ModInfo) (f : FileInfo) (t : ExtensionType)
    (lang : String) : JObj :=
  jset (getManifestEntryTemplate mi f t) "language" (.str lang)

/-- The per-type entry construction of the add flow: a game add without a
game domain is treated as a tool, a translation add without a language code
is fatal. -/
def buildNewEntry (u : AddUpstream) (env : AddEnv) (mi : ModInfo) (latest : FileInfo) :
    ExtensionType → Except AddErr JObj
| .game =>
  if env.gamedomain ≠ "" then
    match u.gameInfo env.gamedomain with
    | some gi => .ok (createManifestEntryForGame mi latest .game gi)
    | none => .error .gameInfoFailed
  else .ok (createManifestEntryForTool mi latest .game)
| .translation =>
  if env.languageCode = "" then .error .noLanguageCode
  else .ok (createManifestEntryForTranslation mi latest .translation env.languageCode)
| .theme => .ok (createManifestEntryForTheme mi latest .theme)

/-- `processNexusMods` of the add flow.  Checks run in source order; the
duplicate check sits after entry construction, right before the push. -/
def addProcessNexusMods (u : AddUpstream) (env : AddEnv) (exts : List JObj) :
    Except AddErr (List JObj × JObj) :=
  match u.modInfo env.modid with
  | none => .error .fetchFailed
  | some mi =>
    if mi.status ≠ "published" then .error .notPublished
    else
      match CATEGORIES mi.category_id with
      | none => .error .notCategory
      | some ety =>
        match (u.modFiles env.modid).filter (fun f => f.category_id == 1) with
        | [] => .error .noMainFile
        | f0 :: fs =>
          match buildNewEntry u env mi (latestFile f0 fs) ety with
          | .error e => .error e
          | .ok newEntry =>
            match exts.find? (matchMod env.modid) with
            | some _ => .error .alreadyExists
            | none => .ok (exts ++ [newEntry], newEntry)

/-- `Driver.process()` of the add flow: on any `process.exit(1)` nothing is
written; on success the pushed-to list is written with a fresh timestamp. -/
def addRun (u : AddUpstream) (env : AddEnv) (now : Int) (m : Manifest) :
    Except AddErr Manifest :=
  match addProcessNexusMods u env m.extensions with
  | .error e => .error e
  | .ok (exts, _) => .ok { last_updated := now, extensions := exts }

/-!
## Proof-infrastructure definitions for the idempotence analysis
-/

/-- The per-candidate entry transformation the refresh flow applies to the
first manifest entry matching the candidate, when one exists; `none` when the
step never touches the manifest (fetch failure, missing picture, unrecognized
category, or the append-free new-extension branch). -/
def entryTransform (u : Upstream) (c : Int) : Option (JObj → JObj) :=
  match u.modInfo c with
  | none => none
  | some mi =>
    if mi.picture_url = none then none
    else if mi.status ≠ "published" then some removeNexusMod
    else
      match CATEGORIES mi.category_id with
      | none => none
      | some _ =>
        match filteredFilesOf u c with
        | [] => some removeNexusMod
        | f0 :: fs => some (updateEntry mi (latestFile f0 fs))

/-- The effect of one refresh step on the candidate's own find-result. -/
def applyT (u : Upstream) (c : Int) (o : Option JObj) : Option JObj :=
  match entryTransform u c, o with
  | some T, some e => some (T e)
  | _, _ => o

/-- Well-formedness of an in-memory extensions list: no entry carries a
duplicate key (true of anything parsed from JSON). -/
def StateWF (s : List JObj) : Prop := ∀ e ∈ s, KeysNodup e

/-!
## Concrete instances used by the claim theorems
-/

/-- A published game-category mod (category 4) with a preview image. -/
def miX : ModInfo :=
  { mod_id := 598, name := "Back 4 Blood Support", author := "Nexus",
    uploaded_by := "insomnious", summary := some "short text",
    description := some "long text", picture_url := some "https://pic",
    status := "published", category_id := 4,
    mod_unique_downloads := 10, endorsement_count := 5 }

/-- A main file with no version constraint in its description. -/
def fX : FileInfo :=
  { file_id := 777, category_id := 1, version := "1.0.0",
    uploaded_timestamp := 1000, description := "" }

def eC3 : JObj :=
  [("modId", .num 42), ("fileId", .num 9), ("name", .str "Old Tool"), ("author", .str "x")]

/-- An entry passing every check of `validateManifestEntry` except that its
`type` field is absent. -/
def eC4 : JObj :=
  [("modId", .num 1), ("fileId", .num 2), ("author", .str "a"), ("uploader", .str "u"),
   ("description", .obj [("short", .str "s"), ("long", .str "l")]),
   ("downloads", .num 3), ("endorsements", .num 4), ("name", .str "n"),
   ("timestamp", .num 5), ("tags", .arr []), ("version", .str "1.0.0"),
   ("gameName", .str "g")]

def toolEntryC5 : JObj := createManifestEntryForTool miX fX .game

/-- The spec's version-filter example file. -/
def fC6 : FileInfo :=
  { file_id := 100, category_id := 1, version := "1.0.0",
    uploaded_timestamp := 0, description := "requires vortex >=1.8.0 <2.0.0" }

/-- A hyphen-style constraint: the regex class has no literal `-`, so the
capture stops before it and only `1.6` is tested against the window. -/
def fC6b : FileInfo :=
  { file_id := 101, category_id := 1, version := "1.0.0",
    uploaded_timestamp := 0, description := "requires vortex 1.6 - 1.8" }

/-- A `v`-prefixed constraint: `v` lies in the class under `/i`, so
`v2.0.0` is captured and parsed as the exact version `2.0.0`. -/
def fC6c : FileInfo :=
  { file_id := 102, category_id := 1, version := "1.0.0",
    uploaded_timestamp := 0, description := "requires vortex v2.0.0" }

/-- A wordy constraint: letters are class characters, so `version 1.2` is
captured — and is an invalid range, which no version satisfies. -/
def fC6d : FileInfo :=
  { file_id := 103, category_id := 1, version := "1.0.0",
    uploaded_timestamp := 0, description := "requires vortex version 1.2" }

def f100 : FileInfo :=
  { file_id := 100, category_id := 1, version := "1.0.0",
    uploaded_timestamp := 0, description := "" }

def f205 : FileInfo :=
  { file_id := 205, category_id := 1, version := "2.0.0",
    uploaded_timestamp := 5, description := "" }

def uC8 : Upstream :=
  { modInfo := fun c => if c = 598 then some miX else none,
    modFiles := fun c => if c = 598 then [f100, f205] else [],
    recent := fun _ => [] }

def eC8 : JObj :=
  [("modId", .num 598), ("fileId", .num 100), ("name", .str "Old Name"),
   ("author", .str "a"), ("type", .str "game"), ("gameName", .str "Back 4 Blood")]

/-- The add flow driven towards a theme extension with two main files. -/
def uA8 : AddUpstream :=
  { modInfo := fun c => if c = 598 then some { miX with category_id := 13 } else none,
    modFiles := fun c => if c = 598 then [f100, f205] else [],
    gameInfo := fun _ => none }

def envA8 : AddEnv := { modid := 598, gamedomain := "", languageCode := "" }

/-- Refresh upstream for the end-to-end new-extension scenario: candidate
598 is reported as recently updated, fetches fine, is published, categorised
as a game and has one unconstrained main file. -/
def uC1 : Upstream :=
  { modInfo := fun c => if c = 598 then some miX else none,
    modFiles := fun c => if c = 598 then [fX] else [],
    recent := fun _ => [{ mod_id := 598, latest_file_update := 10, latest_mod_activity := 10 }] }

def mC7 : Manifest :=
  { last_updated := 0,
    extensions := [[("modId", JVal.num 598), ("fileId", JVal.num 100)]] }

def stubC10 : JObj := [("modId", .num 598), ("fileId", .num 777)]

def gdC2 : GameDesc :=
  { folder := "game-back4blood",
    info := { id := none, name := "Game: Back 4 Blood", author := "Nexus",
              description := "bundled game", version := "1.0.0" } }

def mC2 : Manifest := { last_updated := 0, extensions := [eC8] }

/-- A translation-style entry carrying a `language` field. -/
def transC9 : JObj :=
  [("modId", .num 1), ("language", .str "en"), ("hide", .bool true)]

/-!
## Lemmas about the JS-object model
-/

@[simp] theorem jget_nil (k : String) : jget [] k = .undef := rfl

@[simp] theorem jget_cons (k' : String) (v' : JVal) (rest : JObj) (k : String) :
    jget ((k', v') :: rest) k = if k' = k then v' else jget rest k := rfl

@[simp] theorem jkeys_nil : jkeys [] = [] := rfl

@[simp] theorem jkeys_cons (k : String) (v : JVal) (rest : JObj) :
    jkeys ((k, v) :: rest) = k :: jkeys rest := rfl

@[simp] theorem hasKey_nil (k : String) : hasKey [] k = false := rfl

@[simp] theorem hasKey_cons (k' : String) (v' : JVal) (rest : JObj) (k : String) :
    hasKey ((k', v') :: rest) k = if k' = k then true else hasKey rest k := rfl

theorem jget_jset_self (o : JObj) (k : String) (v : JVal) : jget (jset o k v) k = v := by
  induction o with
  | nil => simp [jget, jset]
  | cons p rest ih =>
    obtain ⟨k', v'⟩ := p
    by_cases h : k' = k
    · simp [jset, h]
    · simp [jset, h, ih]

theorem jget_jset_ne (o : JObj) {k k' : String} (v : JVal) (h : k' ≠ k) :
    jget (jset o k' v) k = jget o k := by
  induction o with
  | nil => simp [jget, jset, h]
  | cons p rest ih =>
    obtain ⟨k₁, v₁⟩ := p
    by_cases h₁ : k₁ = k'
    · simp [jset, h₁, h]
    · simp only [jset, if_neg h₁, jget_cons]
      by_cases h₂ : k₁ = k
      · simp [h₂]
      · simp [h₂, ih]

theorem hasKey_iff_mem (o : JObj) (k : String) : hasKey o k = true ↔ k ∈ jkeys o := by
  induction o with
  | nil => simp
  | cons p rest ih =>
    obtain ⟨k', v'⟩ := p
    by_cases h : k' = k
    · simp [h]
    · simp [h, ih, Ne.symm h]

theorem jkeys_jset_of_hasKey (o : JObj) {k : String} (v : JVal) (h : hasKey o k = true) :
    jkeys (jset o k v) = jkeys o := by
  induction o with
  | nil => simp at h
  | cons p rest ih =>
    obtain ⟨k', v'⟩ := p
    by_cases h' : k' = k
    · subst h'
      simp [jset]
    · simp [h'] at h
      simp [jset, h', ih h]

theorem jkeys_jset_of_not_hasKey (o : JObj) {k : String} (v : JVal) (h : hasKey o k = false) :
    jkeys (jset o k v) = jkeys o ++ [k] := by
  induction o with
  | nil => simp [jset]
  | cons p rest ih =>
    obtain ⟨k', v'⟩ := p
    by_cases h' : k' = k
    · simp [h'] at h
    · simp [h'] at h
      simp [jset, h', ih h]

theorem hasKey_jset (o : JObj) (k k' : String) (v : JVal) :
    hasKey (jset o k' v) k = (if k' = k then true else hasKey o k) := by
  induction o with
  | nil => by_cases h : k' = k <;> simp [jset, h]
  | cons p rest ih =>
    obtain ⟨k₁, v₁⟩ := p
    by_cases h₁ : k₁ = k'
    · subst h₁
      by_cases h₂ : k₁ = k <;> simp [jset, h₂]
    · simp only [jset, if_neg h₁, hasKey_cons]
      by_cases h₂ : k₁ = k
      · subst h₂
        have : ¬ k' = k₁ := fun hx => h₁ hx.symm
        simp [this]
      · simp [h₂, ih]

theorem keysNodup_jset (o : JObj) (k : String) (v : JVal) (h : KeysNodup o) :
    KeysNodup (jset o k v) := by
  by_cases hk : hasKey o k = true
  · unfold KeysNodup
    rw [jkeys_jset_of_hasKey o v hk]; exact h
  · unfold KeysNodup
    rw [jkeys_jset_of_not_hasKey o v (by simpa using hk)]
    have hnotmem : k ∉ jkeys o := by
      rw [← hasKey_iff_mem]; simpa using hk
    simpa [List.nodup_append] using ⟨h, hnotmem⟩

theorem jget_eq_undef_of_not_hasKey (o : JObj) {k : String} (h : hasKey o k = false) :
    jget o k = .undef := by
  induction o with
  | nil => simp
  | cons p rest ih =>
    obtain ⟨k', v'⟩ := p
    by_cases h' : k' = k
    · simp [h'] at h
    · simp [h'] at h ⊢
      exact ih h

@[simp] theorem applyAssigns_nil (o : JObj) : applyAssigns [] o = o := rfl

@[simp] theorem applyAssigns_cons (k : String) (v : JVal) (as : List (String × JVal)) (o : JObj) :
    applyAssigns ((k, v) :: as) o = applyAssigns as (jset o k v) := rfl

@[simp] theorem lastVal_nil (k : String) (d : JVal) : lastVal [] k d = d := rfl

@[simp] theorem lastVal_cons (k₁ : String) (v₁ : JVal) (as : List (String × JVal))
    (k : String) (d : JVal) :
    lastVal ((k₁, v₁) :: as) k d = lastVal as k (if k₁ = k then v₁ else d) := rfl

theorem jget_applyAssigns (as : List (String × JVal)) (o : JObj) (k : String) :
    jget (applyAssigns as o) k = lastVal as k (jget o k) := by
  induction as generalizing o with
  | nil => simp
  | cons p rest ih =>
    obtain ⟨k₁, v₁⟩ := p
    by_cases h : k₁ = k
    · subst h
      simp [ih, jget_jset_self]
    · simp [h, ih, jget_jset_ne _ _ h]

theorem hasKey_applyAssigns_of_hasKey (as : List (String × JVal)) (o : JObj) {k : String}
    (h : hasKey o k = true) : hasKey (applyAssigns as o) k = true := by
  induction as generalizing o with
  | nil => simpa using h
  | cons p rest ih =>
    rw [applyAssigns_cons]
    apply ih
    rw [hasKey_jset]
    by_cases hq : p.1 = k <;> simp [hq, h]

theorem hasKey_applyAssigns_of_mem (as : List (String × JVal)) (o : JObj) {k : String}
    (h : k ∈ as.map Prod.fst) : hasKey (applyAssigns as o) k = true := by
  induction as generalizing o with
  | nil => simp at h
  | cons p rest ih =>
    rw [applyAssigns_cons]
    by_cases hm : k ∈ rest.map Prod.fst
    · exact ih _ hm
    · have hk : p.1 = k := by
        simp only [List.map_cons, List.mem_cons] at h
        rcases h with h | h
        · exact h.symm
        · exact absurd h hm
      apply hasKey_applyAssigns_of_hasKey
      rw [hasKey_jset, if_pos hk]

theorem hasKey_applyAssigns_of_not_mem (as : List (String × JVal)) (o : JObj) {k : String}
    (h : k ∉ as.map Prod.fst) : hasKey (applyAssigns as o) k = hasKey o k := by
  induction as generalizing o with
  | nil => simp
  | cons p rest ih =>
    obtain ⟨k₁, v₁⟩ := p
    have h₁ : ¬ k₁ = k := by
      intro hx; exact h (by simp [hx])
    have h₂ : k ∉ rest.map Prod.fst := by
      intro hx; exact h (by simp [hx])
    rw [applyAssigns_cons, ih _ h₂, hasKey_jset, if_neg h₁]

theorem jkeys_applyAssigns_of_all (as : List (String × JVal)) (o : JObj)
    (h : ∀ p ∈ as, hasKey o p.1 = true) :
    jkeys (applyAssigns as o) = jkeys o := by
  induction as generalizing o with
  | nil => simp
  | cons p rest ih =>
    obtain ⟨k₁, v₁⟩ := p
    have hk : hasKey o k₁ = true := h (k₁, v₁) (List.mem_cons_self _ _)
    rw [applyAssigns_cons, ih]
    · exact jkeys_jset_of_hasKey o v₁ hk
    · intro q hq
      rw [hasKey_jset]
      by_cases hq₁ : k₁ = q.1
      · simp [hq₁]
      · simp only [if_neg hq₁]
        exact h q (List.mem_cons_of_mem _ hq)

theorem keysNodup_applyAssigns (as : List (String × JVal)) (o : JObj) (h : KeysNodup o) :
    KeysNodup (applyAssigns as o) := by
  induction as generalizing o with
  | nil => simpa
  | cons p rest ih =>
    rw [applyAssigns_cons]
    exact ih _ (keysNodup_jset o p.1 p.2 h)

theorem lastVal_of_not_mem (as : List (String × JVal)) {k : String} (d : JVal)
    (h : k ∉ as.map Prod.fst) :
    lastVal as k d = d := by
  induction as generalizing d with
  | nil => simp
  | cons p rest ih =>
    obtain ⟨k₁, v₁⟩ := p
    have hne : ¬ k₁ = k := by
      intro hx; exact h (by simp [hx])
    have h₂ : k ∉ rest.map Prod.fst := by
      intro hx; exact h (by simp [hx])
    simp [hne, ih _ h₂]

theorem lastVal_of_mem (as : List (String × JVal)) {k : String}
    (h : k ∈ as.map Prod.fst) (d d' : JVal) :
    lastVal as k d = lastVal as k d' := by
  induction as generalizing d d' with
  | nil => simp at h
  | cons p rest ih =>
    obtain ⟨k₁, v₁⟩ := p
    by_cases h₁ : k₁ = k
    · simp [h₁]
    · have : k ∈ rest.map Prod.fst := by
        simp only [List.map_cons, List.mem_cons] at h
        rcases h with h' | h'
        · exact absurd h'.symm h₁
        · exact h'
      simp only [lastVal_cons, if_neg h₁]
      exact ih this d d'

/-- Extensionality for JS objects: with no duplicate keys, an object is
determined by its ordered key list together with the value of each key. -/
theorem jobj_ext : ∀ o₁ o₂ : JObj, KeysNodup o₁ → jkeys o₁ = jkeys o₂ →
    (∀ k, jget o₁ k = jget o₂ k) → o₁ = o₂ := by
  intro o₁
  induction o₁ with
  | nil =>
    intro o₂ hn hk hv
    cases o₂ with
    | nil => rfl
    | cons q rest => simp [jkeys] at hk
  | cons p rest ih =>
    intro o₂ hn hk hv
    obtain ⟨k₁, v₁⟩ := p
    cases o₂ with
    | nil => simp [jkeys] at hk
    | cons q rest₂ =>
      obtain ⟨k₂, v₂⟩ := q
      simp only [jkeys_cons, List.cons.injEq] at hk
      obtain ⟨hkk, hrest⟩ := hk
      subst hkk
      have hval : v₁ = v₂ := by
        have := hv k₁
        simpa using this
      subst hval
      have hn2 : (k₁ :: jkeys rest).Nodup := hn
      have hn' : KeysNodup rest := (List.nodup_cons.mp hn2).2
      have hnotmem : k₁ ∉ jkeys rest := (List.nodup_cons.mp hn2).1
      have hv' : ∀ k, jget rest k = jget rest₂ k := by
        intro k
        by_cases hkeq : k = k₁
        · subst hkeq
          have h₁ : hasKey rest k = false := by
            by_contra hx
            exact hnotmem ((hasKey_iff_mem rest k).mp (by simpa using hx))
          have h₂ : hasKey rest₂ k = false := by
            by_contra hx
            have : k ∈ jkeys rest₂ := (hasKey_iff_mem rest₂ k).mp (by simpa using hx)
            rw [← hrest] at this
            exact hnotmem this
          rw [jget_eq_undef_of_not_hasKey rest h₁, jget_eq_undef_of_not_hasKey rest₂ h₂]
        · have := hv k
          simpa [Ne.symm hkeq] using this
      exact congrArg _ (ih rest₂ hn' hrest hv')

/-- Re-running the same assignment pipeline over its own result is the
identity: the keys are already all present (so no key is appended and the
key order is unchanged) and every key already holds its final value. -/
theorem applyAssigns_idem (as : List (String × JVal)) (o : JObj) (h : KeysNodup o) :
    applyAssigns as (applyAssigns as o) = applyAssigns as o := by
  apply jobj_ext
  · exact keysNodup_applyAssigns _ _ (keysNodup_applyAssigns _ _ h)
  · apply jkeys_applyAssigns_of_all
    intro p hp
    exact hasKey_applyAssigns_of_mem as o (List.mem_map_of_mem Prod.fst hp)
  · intro k
    rw [jget_applyAssigns, jget_applyAssigns]
    by_cases hc : k ∈ as.map Prod.fst
    · exact lastVal_of_mem as hc _ _
    · rw [lastVal_of_not_mem as _ hc]

/-! ## `find?` / `modifyFirst` interplay -/

theorem modifyFirst_of_find?_none (p : JObj → Bool) (f : JObj → JObj) (l : List JObj)
    (h : l.find? p = none) : modifyFirst p f l = l := by
  induction l with
  | nil => rfl
  | cons e rest ih =>
    rw [List.find?_cons] at h
    cases hp : p e with
    | true => simp [hp] at h
    | false =>
      simp only [hp] at h
      simp [modifyFirst, hp, ih h]

theorem modifyFirst_eq_self (p : JObj → Bool) (f : JObj → JObj) (l : List JObj) (e : JObj)
    (h : l.find? p = some e) (hf : f e = e) : modifyFirst p f l = l := by
  induction l with
  | nil => simp at h
  | cons e₁ rest ih =>
    rw [List.find?_cons] at h
    cases hp : p e₁ with
    | true =>
      simp only [hp] at h
      have : e₁ = e := by simpa using h
      subst this
      simp [modifyFirst, hp, hf]
    | false =>
      simp only [hp] at h
      simp [modifyFirst, hp, ih h]

theorem find?_modifyFirst_self (p : JObj → Bool) (f : JObj → JObj) (l : List JObj) (e : JObj)
    (h : l.find? p = some e) (hf : p (f e) = true) :
    (modifyFirst p f l).find? p = some (f e) := by
  induction l with
  | nil => simp at h
  | cons e₁ rest ih =>
    rw [List.find?_cons] at h
    cases hp : p e₁ with
    | true =>
      simp only [hp] at h
      have : e₁ = e := by simpa using h
      subst this
      simp [modifyFirst, hp, List.find?_cons, hf]
    | false =>
      simp only [hp] at h
      simp [modifyFirst, hp, List.find?_cons, ih h]

theorem find?_modifyFirst_frame (p q : JObj → Bool) (f : JObj → JObj) (l : List JObj)
    (h : ∀ e, q e = true → p e = false ∧ p (f e) = false) :
    (modifyFirst q f l).find? p = l.find? p := by
  induction l with
  | nil => rfl
  | cons e rest ih =>
    cases hq : q e with
    | true =>
      obtain ⟨h₁, h₂⟩ := h e hq
      simp [modifyFirst, hq, List.find?_cons, h₁, h₂, ih]
    | false =>
      cases hp : p e with
      | true => simp [modifyFirst, hq, List.find?_cons, hp]
      | false => simp [modifyFirst, hq, List.find?_cons, hp, ih]

theorem find?_append_last (p : JObj → Bool) (l : List JObj) (x : JObj) :
    (l ++ [x]).find? p = match l.find? p with
      | some e => some e
      | none => if p x then some x else none := by
  induction l with
  | nil => cases hp : p x <;> simp [List.find?_cons, hp]
  | cons e rest ih =>
    cases hp : p e with
    | true => simp [List.find?_cons, hp]
    | false => simp [List.find?_cons, hp, ih]

theorem foldl_fix {α : Type} (f : List JObj → α → List JObj) (s : List JObj) (l : List α)
    (h : ∀ a ∈ l, f s a = s) : l.foldl f s = s := by
  induction l with
  | nil => rfl
  | cons a rest ih =>
    rw [List.foldl_cons, h a (List.mem_cons_self _ _)]
    exact ih fun b hb => h b (List.mem_cons_of_mem _ hb)

theorem jsIsUndef_eq_true_iff (v : JVal) : jsIsUndef v = true ↔ v = .undef := by
  cases v <;> simp [jsIsUndef]

theorem jsEqNum_num_self (n : Int) : jsEqNum (.num n) n = true := by
  simp [jsEqNum]

/-- `jget` through a key-predicate filter, for a retained key. -/
theorem jget_filter_of_true (e : JObj) (P : String → Bool) {k : String} (h : P k = true) :
    jget (e.filter fun p => P p.1) k = jget e k := by
  induction e with
  | nil => simp
  | cons p rest ih =>
    obtain ⟨k₁, v₁⟩ := p
    by_cases h₁ : P k₁ = true
    · by_cases h₂ : k₁ = k <;> simp [List.filter_cons, h₁, h₂, h, ih]
    · have hne : ¬ k₁ = k := fun hx => h₁ (hx ▸ h)
      simp [List.filter_cons, h₁, hne, ih]

theorem mem_jkeys_filter (e : JObj) (P : String → Bool) (k : String) :
    k ∈ jkeys (e.filter fun p => P p.1) ↔ (P k = true ∧ k ∈ jkeys e) := by
  induction e with
  | nil => simp
  | cons p rest ih =>
    obtain ⟨k₁, v₁⟩ := p
    by_cases h₁ : P k₁ = true
    · by_cases h₂ : k₁ = k
      · subst h₂
        simp [List.filter_cons, h₁, ih]
      · simp [List.filter_cons, h₁, ih, Ne.symm h₂]
    · by_cases h₂ : k₁ = k
      · subst h₂
        simp only [List.filter_cons, if_neg h₁, jkeys_cons, List.mem_cons, ih]
        constructor
        · rintro ⟨ha, hb⟩
          exact ⟨ha, Or.inr hb⟩
        · rintro ⟨ha, _⟩
          exact absurd ha (by simpa using h₁)
      · simp [List.filter_cons, h₁, ih, Ne.symm h₂]

theorem keysNodup_filter (e : JObj) (P : String → Bool) (h : KeysNodup e) :
    KeysNodup (e.filter fun p => P p.1) := by
  unfold KeysNodup jkeys at h ⊢
  have hs : (e.filter fun p => P p.1).Sublist e := List.filter_sublist e
  exact h.sublist (hs.map Prod.fst)

theorem normalizeManifestEntry_eq (e : JObj) :
    normalizeManifestEntry e = normFields e getExpectedFieldOrder := rfl

theorem normFields_cons_undef (e : JObj) (f : String) (rest : List String)
    (hc : jsIsUndef (jget e f) = true) :
    normFields e (f :: rest) = normFields e rest := by
  simp [normFields, List.filterMap_cons, hc]

theorem normFields_cons_def (e : JObj) (f : String) (rest : List String)
    (hc : jsIsUndef (jget e f) = false) :
    normFields e (f :: rest) = (f, jget e f) :: normFields e rest := by
  simp [normFields, List.filterMap_cons, hc]

theorem jget_normFields_not_mem (e : JObj) (fs : List String) {k : String} (h : k ∉ fs) :
    jget (normFields e fs) k = .undef := by
  induction fs with
  | nil => simp [normFields]
  | cons f rest ih =>
    have hne : ¬ f = k := fun hx => h (by simp [hx])
    have h₂ : k ∉ rest := fun hx => h (by simp [hx])
    by_cases hc : jsIsUndef (jget e f) = true
    · rw [normFields_cons_undef e f rest hc]
      exact ih h₂
    · rw [normFields_cons_def e f rest (by simpa using hc)]
      simpa [jget, hne] using ih h₂

theorem mem_jkeys_normFields (e : JObj) (fs : List String) (k : String) :
    k ∈ jkeys (normFields e fs) ↔ (k ∈ fs ∧ jsIsUndef (jget e k) = false) := by
  induction fs with
  | nil => simp [normFields]
  | cons f rest ih =>
    constructor
    · intro hmem
      by_cases hc : jsIsUndef (jget e f) = true
      · rw [normFields_cons_undef e f rest hc] at hmem
        obtain ⟨h1, h2⟩ := ih.mp hmem
        exact ⟨List.mem_cons_of_mem _ h1, h2⟩
      · rw [normFields_cons_def e f rest (by simpa using hc)] at hmem
        rcases List.mem_cons.mp hmem with h1 | h1
        · subst h1
          exact ⟨List.mem_cons_self _ _, by simpa using hc⟩
        · obtain ⟨h2, h3⟩ := ih.mp h1
          exact ⟨List.mem_cons_of_mem _ h2, h3⟩
    · rintro ⟨h1, h2⟩
      rcases List.mem_cons.mp h1 with h3 | h3
      · subst h3
        rw [normFields_cons_def e k rest h2]
        exact List.mem_cons_self _ _
      · by_cases hc : jsIsUndef (jget e f) = true
        · rw [normFields_cons_undef e f rest hc]
          exact ih.mpr ⟨h3, h2⟩
        · rw [normFields_cons_def e f rest (by simpa using hc)]
          exact List.mem_cons_of_mem _ (ih.mpr ⟨h3, h2⟩)

theorem jget_normFields_mem (e : JObj) (fs : List String) (hnd : fs.Nodup) {k : String}
    (h : k ∈ fs) : jget (normFields e fs) k = jget e k := by
  induction fs with
  | nil => simp at h
  | cons f rest ih =>
    have hnd' : rest.Nodup := (List.nodup_cons.mp hnd).2
    by_cases h₂ : f = k
    · subst h₂
      have hout : f ∉ rest := (List.nodup_cons.mp hnd).1
      by_cases hc : jsIsUndef (jget e f) = true
      · rw [normFields_cons_undef e f rest hc, jget_normFields_not_mem e rest hout,
          (jsIsUndef_eq_true_iff _).mp hc]
      · rw [normFields_cons_def e f rest (by simpa using hc)]
        simp [jget]
    · have hmem : k ∈ rest := by
        rcases List.mem_cons.mp h with h' | h'
        · exact absurd h'.symm h₂
        · exact h'
      by_cases hc : jsIsUndef (jget e f) = true
      · rw [normFields_cons_undef e f rest hc]
        exact ih hnd' hmem
      · rw [normFields_cons_def e f rest (by simpa using hc)]
        simpa [jget, h₂] using ih hnd' hmem

theorem mem_if_singleton {c : Prop} [Decidable c] (x s : String) :
    (x ∈ if c then [s] else []) ↔ (c ∧ x = s) := by
  split <;> simp_all

theorem mem_if_lists {c : Prop} [Decidable c] (x : String) (l₁ l₂ : List String) :
    (x ∈ if c then l₁ else l₂) ↔ ((c ∧ x ∈ l₁) ∨ (¬ c ∧ x ∈ l₂)) := by
  split <;> simp_all

/-!
## Idempotence of the per-entry transformations
-/

theorem jset_jset_same (o : JObj) (k : String) (v : JVal) :
    jset (jset o k v) k v = jset o k v := by
  induction o with
  | nil => simp [jset]
  | cons p rest ih =>
    obtain ⟨k₁, v₁⟩ := p
    by_cases h : k₁ = k
    · simp [jset, h]
    · simp [jset, h, ih]

theorem dependenciesFromDescription_idem (x : JVal) (d : String) :
    dependenciesFromDescription (dependenciesFromDescription x d) d =
      dependenciesFromDescription x d := by
  unfold dependenciesFromDescription
  cases h : vortexRequirementOf d with
  | none => rfl
  | some req => cases x <;> simp [jset, jset_jset_same]

theorem not_or_bool {a b : Bool} (h : ¬ (a || b) = true) : a = false ∧ b = false := by
  cases a <;> cases b <;> simp_all

theorem jsEqNum_eq_true_iff (v : JVal) (n : Int) : jsEqNum v n = true ↔ v = .num n := by
  cases v <;> simp [jsEqNum]

theorem lastVal_updateAssigns_fileId (mi : ModInfo) (f : FileInfo) (t g l dep d : JVal) :
    lastVal (updateAssigns mi f t g l dep) "fileId" d = .num f.file_id := by
  simp [updateAssigns, makeExtension, lastVal]

theorem lastVal_updateAssigns_name (mi : ModInfo) (f : FileInfo) (t g l dep d : JVal) :
    lastVal (updateAssigns mi f t g l dep) "name" d = .str mi.name := by
  simp [updateAssigns, makeExtension, lastVal]

theorem lastVal_updateAssigns_type (mi : ModInfo) (f : FileInfo) (t g l dep d : JVal) :
    lastVal (updateAssigns mi f t g l dep) "type" d = t := by
  simp [updateAssigns, makeExtension, lastVal]

theorem lastVal_updateAssigns_gameName (mi : ModInfo) (f : FileInfo) (t g l dep d : JVal) :
    lastVal (updateAssigns mi f t g l dep) "gameName" d = g := by
  simp [updateAssigns, makeExtension, lastVal]

theorem lastVal_updateAssigns_language (mi : ModInfo) (f : FileInfo) (t g l dep d : JVal) :
    lastVal (updateAssigns mi f t g l dep) "language" d = l := by
  simp [updateAssigns, makeExtension, lastVal]

theorem lastVal_updateAssigns_deps (mi : ModInfo) (f : FileInfo) (t g l dep d : JVal) :
    lastVal (updateAssigns mi f t g l dep) "dependencies" d =
      dependenciesFromDescription dep f.description := by
  simp [updateAssigns, makeExtension, lastVal]

theorem lastVal_updateAssigns_modId (mi : ModInfo) (f : FileInfo) (t g l dep d : JVal) :
    lastVal (updateAssigns mi f t g l dep) "modId" d = .num mi.mod_id := by
  simp [updateAssigns, makeExtension, lastVal]

/-- The rewrite branch of `updateEntry` in `applyAssigns` form. -/
theorem updateEntry_rewrite (mi : ModInfo) (f : FileInfo) (e : JObj)
    (h : (!(jsEqNum (jget e "fileId") f.file_id) || !(jsIsUndef (jget e "name"))) = true) :
    updateEntry mi f e =
      applyAssigns
        (updateAssigns mi f (jget e "type") (jget e "gameName") (jget e "language")
          (jget e "dependencies"))
        (if !(jsEqNum (jget e "fileId") f.file_id) then jset e "fileId" (.num f.file_id)
         else e) := by
  unfold updateEntry
  rcases Bool.or_eq_true_iff.mp h with h' | h' <;> simp [h']

/-- The unchanged branch: same fileId and no name leaves the entry as-is. -/
theorem updateEntry_of_unchanged (mi : ModInfo) (f : FileInfo) (e : JObj)
    (h1 : (!(jsEqNum (jget e "fileId") f.file_id)) = false)
    (h2 : (!(jsIsUndef (jget e "name"))) = false) :
    updateEntry mi f e = e := by
  unfold updateEntry
  simp [h1, h2]

/-- `updateAssigns` reads its dependencies argument only through
`dependenciesFromDescription`. -/
theorem updateAssigns_deps_congr (mi : ModInfo) (f : FileInfo) (t g l : JVal)
    (dep₁ dep₂ : JVal)
    (h : dependenciesFromDescription dep₁ f.description =
      dependenciesFromDescription dep₂ f.description) :
    updateAssigns mi f t g l dep₁ = updateAssigns mi f t g l dep₂ := by
  unfold updateAssigns
  rw [h]

theorem keysNodup_updateEntry (mi : ModInfo) (f : FileInfo) (e : JObj) (h : KeysNodup e) :
    KeysNodup (updateEntry mi f e) := by
  by_cases hcond : (!(jsEqNum (jget e "fileId") f.file_id)
      || !(jsIsUndef (jget e "name"))) = true
  · rw [updateEntry_rewrite mi f e hcond]
    apply keysNodup_applyAssigns
    split
    · exact keysNodup_jset _ _ _ h
    · exact h
  · obtain ⟨h1, h2⟩ := not_or_bool hcond
    rw [updateEntry_of_unchanged mi f e h1 h2]
    exact h

theorem keysNodup_removeNexusMod (e : JObj) (h : KeysNodup e) :
    KeysNodup (removeNexusMod e) :=
  keysNodup_filter e (fun x => x == "modId" || x == "fileId") h

theorem removeNexusMod_idem (e : JObj) :
    removeNexusMod (removeNexusMod e) = removeNexusMod e := by
  unfold removeNexusMod
  rw [List.filter_filter]
  simp

theorem jget_removeNexusMod_modId (e : JObj) :
    jget (removeNexusMod e) "modId" = jget e "modId" :=
  jget_filter_of_true e (fun x => x == "modId" || x == "fileId") (by simp)

/-- After the rewrite branch ran, `fileId` holds the latest id and `name`
holds the fetched (string) name, while `type`, `gameName`, `language` and
`dependencies` hold the values the branch itself computed. -/
theorem updateEntry_fields (mi : ModInfo) (f : FileInfo) (e : JObj)
    (h : (!(jsEqNum (jget e "fileId") f.file_id) || !(jsIsUndef (jget e "name"))) = true) :
    jget (updateEntry mi f e) "fileId" = .num f.file_id ∧
    jget (updateEntry mi f e) "name" = .str mi.name ∧
    jget (updateEntry mi f e) "type" = jget e "type" ∧
    jget (updateEntry mi f e) "gameName" = jget e "gameName" ∧
    jget (updateEntry mi f e) "language" = jget e "language" ∧
    jget (updateEntry mi f e) "dependencies" =
      dependenciesFromDescription (jget e "dependencies") f.description := by
  rw [updateEntry_rewrite mi f e h]
  refine ⟨?_, ?_, ?_, ?_, ?_, ?_⟩ <;>
    rw [jget_applyAssigns]
  · rw [lastVal_updateAssigns_fileId]
  · rw [lastVal_updateAssigns_name]
  · rw [lastVal_updateAssigns_type]
  · rw [lastVal_updateAssigns_gameName]
  · rw [lastVal_updateAssigns_language]
  · rw [lastVal_updateAssigns_deps]

theorem updateEntry_idem (mi : ModInfo) (f : FileInfo) (e : JObj) (hnd : KeysNodup e) :
    updateEntry mi f (updateEntry mi f e) = updateEntry mi f e := by
  by_cases h : (!(jsEqNum (jget e "fileId") f.file_id) || !(jsIsUndef (jget e "name"))) = true
  · obtain ⟨hf, hn, ht, hg, hl, hd⟩ := updateEntry_fields mi f e h
    have h2 : (!(jsEqNum (jget (updateEntry mi f e) "fileId") f.file_id)
        || !(jsIsUndef (jget (updateEntry mi f e) "name"))) = true := by
      rw [hn]
      simp [jsIsUndef]
    rw [updateEntry_rewrite mi f (updateEntry mi f e) h2]
    rw [hf]
    have hupd2 : (!(jsEqNum (JVal.num f.file_id) f.file_id)) = false := by
      simp [jsEqNum]
    rw [hupd2]
    simp only [Bool.false_eq_true, if_false]
    rw [ht, hg, hl, hd,
      updateAssigns_deps_congr mi f (jget e "type") (jget e "gameName") (jget e "language")
        (dependenciesFromDescription (jget e "dependencies") f.description)
        (jget e "dependencies") (dependenciesFromDescription_idem _ _)]
    have hnd1 : KeysNodup (if (!(jsEqNum (jget e "fileId") f.file_id)) = true
        then jset e "fileId" (.num f.file_id) else e) := by
      split
      · exact keysNodup_jset _ _ _ hnd
      · exact hnd
    rw [updateEntry_rewrite mi f e h]
    exact applyAssigns_idem _ _ hnd1
  · obtain ⟨h1, h2⟩ := not_or_bool h
    rw [updateEntry_of_unchanged mi f e h1 h2]
    exact updateEntry_of_unchanged mi f e h1 h2

/-!
## Tracking one candidate's entry through a refresh run
-/

theorem matchMod_eq_true_iff (c : Int) (e : JObj) :
    matchMod c e = true ↔ jget e "modId" = .num c :=
  jsEqNum_eq_true_iff _ _

theorem jsEqStr_eq_true_iff (v : JVal) (s : String) : jsEqStr v s = true ↔ v = .str s := by
  cases v <;> simp [jsEqStr]

theorem matchMod_false_of_modId (c c' : Int) (e : JObj)
    (h : jget e "modId" = .num c') (hne : c' ≠ c) : matchMod c e = false := by
  unfold matchMod
  rw [h]
  simp [jsEqNum, hne]

/-- The non-trivial branches of a refresh step are a stub reduction or an
update with the latest compatible file. -/
theorem entryTransform_shape (u : Upstream) (c : Int) (T : JObj → JObj)
    (hT : entryTransform u c = some T) :
    T = removeNexusMod ∨
    ∃ mi f0 fs, u.modInfo c = some mi ∧ filteredFilesOf u c = f0 :: fs ∧
      T = updateEntry mi (latestFile f0 fs) := by
  unfold entryTransform at hT
  split at hT
  · exact Option.noConfusion hT
  · rename_i mi hmi
    split at hT
    · exact Option.noConfusion hT
    · split at hT
      · injection hT with h
        exact Or.inl h.symm
      · split at hT
        · exact Option.noConfusion hT
        · split at hT
          · injection hT with h
            exact Or.inl h.symm
          · rename_i f0 fs hff
            injection hT with h
            exact Or.inr ⟨mi, f0, fs, hmi, hff, h.symm⟩

theorem entryTransform_modId (u : Upstream) (c : Int) (hu : UpstreamWF u)
    (T : JObj → JObj) (hT : entryTransform u c = some T) (e : JObj)
    (he : matchMod c e = true) : jget (T e) "modId" = .num c := by
  have hem : jget e "modId" = .num c := (matchMod_eq_true_iff c e).mp he
  rcases entryTransform_shape u c T hT with hstub | ⟨mi, f0, fs, hmi, hff, hupd⟩
  · subst hstub
    rw [jget_removeNexusMod_modId]
    exact hem
  · subst hupd
    have hid : mi.mod_id = c := hu c mi hmi
    by_cases hcond : (!(jsEqNum (jget e "fileId") (latestFile f0 fs).file_id)
        || !(jsIsUndef (jget e "name"))) = true
    · rw [updateEntry_rewrite _ _ _ hcond, jget_applyAssigns, lastVal_updateAssigns_modId, hid]
    · obtain ⟨h1, h2⟩ := not_or_bool hcond
      rw [updateEntry_of_unchanged _ _ _ h1 h2]
      exact hem

theorem entryTransform_keysNodup (u : Upstream) (c : Int) (T : JObj → JObj)
    (hT : entryTransform u c = some T) (e : JObj) (h : KeysNodup e) :
    KeysNodup (T e) := by
  rcases entryTransform_shape u c T hT with hstub | ⟨mi, f0, fs, _, _, hupd⟩
  · subst hstub; exact keysNodup_removeNexusMod e h
  · subst hupd; exact keysNodup_updateEntry _ _ e h

theorem entryTransform_idem (u : Upstream) (c : Int) (T : JObj → JObj)
    (hT : entryTransform u c = some T) (e : JObj) (h : KeysNodup e) :
    T (T e) = T e := by
  rcases entryTransform_shape u c T hT with hstub | ⟨mi, f0, fs, _, _, hupd⟩
  · subst hstub; exact removeNexusMod_idem e
  · subst hupd; exact updateEntry_idem _ _ e h

/-- A refresh step is exactly: apply the entry transformation to the first
matching entry, when there is a transformation. -/
theorem nexusStep_char (u : Upstream) (c : Int) (s : List JObj) :
    nexusStep u c s = match entryTransform u c with
      | none => s
      | some T => modifyFirst (matchMod c) T s := by
  unfold nexusStep nexusStepO entryTransform
  cases hmi : u.modInfo c with
  | none => rfl
  | some mi =>
    by_cases hpic : mi.picture_url = none
    · simp [hpic]
    · by_cases hstat : mi.status ≠ "published"
      · simp only [if_neg hpic, if_pos hstat]
        cases hf : s.find? (matchMod c) with
        | some e => rfl
        | none => exact (modifyFirst_of_find?_none _ _ _ hf).symm
      · simp only [if_neg hpic, if_neg hstat]
        cases hcat : CATEGORIES mi.category_id with
        | none => rfl
        | some t =>
          cases hff : filteredFilesOf u c with
          | nil =>
            cases hf : s.find? (matchMod c) with
            | some e => rfl
            | none => exact (modifyFirst_of_find?_none _ _ _ hf).symm
          | cons f0 fs =>
            cases hf : s.find? (matchMod c) with
            | some e => rfl
            | none => exact (modifyFirst_of_find?_none _ _ _ hf).symm

theorem nexusStep_of_transform_none (u : Upstream) (c : Int) (s : List JObj)
    (h : entryTransform u c = none) : nexusStep u c s = s := by
  rw [nexusStep_char, h]

theorem nexusStep_of_transform_some (u : Upstream) (c : Int) (s : List JObj)
    (T : JObj → JObj) (h : entryTransform u c = some T) :
    nexusStep u c s = modifyFirst (matchMod c) T s := by
  rw [nexusStep_char, h]

theorem nexusStep_find_frame (u : Upstream) (hu : UpstreamWF u) (c c' : Int) (hne : c ≠ c')
    (s : List JObj) :
    (nexusStep u c' s).find? (matchMod c) = s.find? (matchMod c) := by
  cases hT : entryTransform u c' with
  | none => rw [nexusStep_of_transform_none u c' s hT]
  | some T =>
    rw [nexusStep_of_transform_some u c' s T hT]
    apply find?_modifyFirst_frame
    intro e he
    have hid : jget e "modId" = .num c' := (matchMod_eq_true_iff c' e).mp he
    have hid2 : jget (T e) "modId" = .num c' := entryTransform_modId u c' hu T hT e he
    exact ⟨matchMod_false_of_modId c c' e hid (fun hx => hne hx.symm),
      matchMod_false_of_modId c c' (T e) hid2 (fun hx => hne hx.symm)⟩

theorem nexusStep_find_self (u : Upstream) (hu : UpstreamWF u) (c : Int) (s : List JObj) :
    (nexusStep u c s).find? (matchMod c) = applyT u c (s.find? (matchMod c)) := by
  cases hT : entryTransform u c with
  | none =>
    rw [nexusStep_of_transform_none u c s hT]
    simp [applyT, hT]
  | some T =>
    rw [nexusStep_of_transform_some u c s T hT]
    cases hf : s.find? (matchMod c) with
    | none =>
      rw [modifyFirst_of_find?_none _ _ _ hf, hf]
      simp [applyT, hT]
    | some e =>
      have he : matchMod c e = true := List.find?_some hf
      have hTe : matchMod c (T e) = true := by
        unfold matchMod
        rw [entryTransform_modId u c hu T hT e he]
        simp [jsEqNum]
      rw [find?_modifyFirst_self _ _ _ _ hf hTe]
      simp [applyT, hT]

theorem nexusFold_find_frame (u : Upstream) (hu : UpstreamWF u) (cs : List Int) (c : Int)
    (hc : c ∉ cs) (s : List JObj) :
    (cs.foldl (fun s c' => nexusStep u c' s) s).find? (matchMod c) = s.find? (matchMod c) := by
  induction cs generalizing s with
  | nil => rfl
  | cons c₁ rest ih =>
    have hne : c ≠ c₁ := fun hx => hc (hx ▸ List.mem_cons_self _ _)
    rw [List.foldl_cons, ih (fun hx => hc (List.mem_cons_of_mem _ hx)),
      nexusStep_find_frame u hu c c₁ hne]

theorem nexusFold_find_track (u : Upstream) (hu : UpstreamWF u) (cs : List Int)
    (hnd : cs.Nodup) (c : Int) (hc : c ∈ cs) (s : List JObj) :
    (cs.foldl (fun s c' => nexusStep u c' s) s).find? (matchMod c) =
      applyT u c (s.find? (matchMod c)) := by
  induction cs generalizing s with
  | nil => cases hc
  | cons c₁ rest ih =>
    rw [List.foldl_cons]
    by_cases heq : c = c₁
    · subst heq
      have hout : c ∉ rest := (List.nodup_cons.mp hnd).1
      rw [nexusFold_find_frame u hu rest c hout, nexusStep_find_self u hu c s]
    · have hmem : c ∈ rest := by
        rcases List.mem_cons.mp hc with h | h
        · exact absurd h heq
        · exact h
      rw [ih (List.nodup_cons.mp hnd).2 hmem, nexusStep_find_frame u hu c c₁ heq]

/-!
## Tracking a bundled game's entry through a refresh run
-/

theorem lastVal_gameAssigns_id (gd : GameDesc) (d : JVal) :
    lastVal (gameAssigns gd) "id" d = .str (effId gd) := by
  simp [gameAssigns, lastVal]

theorem gameApply_modId (gd : GameDesc) (e : JObj) :
    jget (gameApply gd e) "modId" = jget e "modId" := by
  unfold gameApply
  rw [jget_applyAssigns, lastVal_of_not_mem]
  simp [gameAssigns]

theorem gameApply_id (gd : GameDesc) (e : JObj) :
    jget (gameApply gd e) "id" = .str (effId gd) := by
  unfold gameApply
  rw [jget_applyAssigns, lastVal_gameAssigns_id]

theorem jget_gameTemplate_modId (gd : GameDesc) :
    jget (gameTemplate gd) "modId" = .undef := by
  simp [gameTemplate, jget]

theorem keysNodup_gameTemplate (gd : GameDesc) : KeysNodup (gameTemplate gd) := by
  show (jkeys (gameTemplate gd)).Nodup
  simp [gameTemplate, jkeys]

theorem keysNodup_gameApply (gd : GameDesc) (e : JObj) (h : KeysNodup e) :
    KeysNodup (gameApply gd e) :=
  keysNodup_applyAssigns _ _ h

theorem matchGame_parts (eff : String) (e : JObj) (h : matchGame eff e = true) :
    jget e "modId" = .undef ∧ jget e "id" = .str eff := by
  unfold matchGame at h
  rw [Bool.and_eq_true] at h
  exact ⟨(jsIsUndef_eq_true_iff _).mp h.1, (jsEqStr_eq_true_iff _ _).mp h.2⟩

theorem matchGame_false_of_modId_num (eff : String) (e : JObj) (n : Int)
    (h : jget e "modId" = .num n) : matchGame eff e = false := by
  unfold matchGame
  rw [h]
  rfl

theorem matchGame_false_of_id_ne (eff eff' : String) (e : JObj)
    (h : jget e "id" = .str eff') (hne : eff' ≠ eff) : matchGame eff e = false := by
  unfold matchGame
  rw [h]
  simp [jsEqStr, hne]

theorem matchMod_false_of_modId_undef (c : Int) (e : JObj)
    (h : jget e "modId" = .undef) : matchMod c e = false := by
  unfold matchMod
  rw [h]
  rfl

theorem nexusStep_find_frame_game (u : Upstream) (hu : UpstreamWF u) (c' : Int)
    (eff : String) (s : List JObj) :
    (nexusStep u c' s).find? (matchGame eff) = s.find? (matchGame eff) := by
  cases hT : entryTransform u c' with
  | none => rw [nexusStep_of_transform_none u c' s hT]
  | some T =>
    rw [nexusStep_of_transform_some u c' s T hT]
    apply find?_modifyFirst_frame
    intro e he
    have hid : jget e "modId" = .num c' := (matchMod_eq_true_iff c' e).mp he
    have hid2 := entryTransform_modId u c' hu T hT e he
    exact ⟨matchGame_false_of_modId_num eff e c' hid,
      matchGame_false_of_modId_num eff (T e) c' hid2⟩

theorem nexusFold_find_frame_game (u : Upstream) (hu : UpstreamWF u) (cs : List Int)
    (eff : String) (s : List JObj) :
    (cs.foldl (fun s c' => nexusStep u c' s) s).find? (matchGame eff) =
      s.find? (matchGame eff) := by
  induction cs generalizing s with
  | nil => rfl
  | cons c₁ rest ih =>
    rw [List.foldl_cons, ih, nexusStep_find_frame_game u hu c₁ eff s]

theorem gameStep_find_frame_mod (gd : GameDesc) (c : Int) (s : List JObj) :
    (gameStep gd s).find? (matchMod c) = s.find? (matchMod c) := by
  unfold gameStep
  cases hf : s.find? (matchGame (effId gd)) with
  | some e =>
    apply find?_modifyFirst_frame
    intro e' he'
    obtain ⟨hm, _⟩ := matchGame_parts _ _ he'
    refine ⟨matchMod_false_of_modId_undef c e' hm, ?_⟩
    apply matchMod_false_of_modId_undef
    rw [gameApply_modId, hm]
  | none =>
    rw [find?_append_last]
    have hnew : matchMod c (gameApply gd (gameTemplate gd)) = false := by
      apply matchMod_false_of_modId_undef
      rw [gameApply_modId, jget_gameTemplate_modId]
    cases hf2 : s.find? (matchMod c) <;> simp [hnew]

theorem gamesFold_find_frame_mod (gs : List GameDesc) (c : Int) (s : List JObj) :
    (gs.foldl (fun s gd => gameStep gd s) s).find? (matchMod c) = s.find? (matchMod c) := by
  induction gs generalizing s with
  | nil => rfl
  | cons g rest ih =>
    rw [List.foldl_cons, ih, gameStep_find_frame_mod g c s]

theorem gameStep_find_self (gd : GameDesc) (s : List JObj) :
    (gameStep gd s).find? (matchGame (effId gd)) =
      some (gameApply gd ((s.find? (matchGame (effId gd))).getD (gameTemplate gd))) := by
  unfold gameStep
  cases hf : s.find? (matchGame (effId gd)) with
  | some e =>
    have he : matchGame (effId gd) e = true := List.find?_some hf
    obtain ⟨hm, _⟩ := matchGame_parts _ _ he
    have hTe : matchGame (effId gd) (gameApply gd e) = true := by
      unfold matchGame
      rw [gameApply_modId, hm, gameApply_id]
      simp [jsIsUndef, jsEqStr]
    rw [find?_modifyFirst_self _ _ _ _ hf hTe]
    simp
  | none =>
    rw [find?_append_last, hf]
    have hx : matchGame (effId gd) (gameApply gd (gameTemplate gd)) = true := by
      unfold matchGame
      rw [gameApply_modId, jget_gameTemplate_modId, gameApply_id]
      simp [jsIsUndef, jsEqStr]
    simp [hx]

theorem gameStep_find_frame_game (gd' : GameDesc) (eff : String) (hne : effId gd' ≠ eff)
    (s : List JObj) :
    (gameStep gd' s).find? (matchGame eff) = s.find? (matchGame eff) := by
  unfold gameStep
  cases hf : s.find? (matchGame (effId gd')) with
  | some e =>
    apply find?_modifyFirst_frame
    intro e' he'
    obtain ⟨_, hi⟩ := matchGame_parts _ _ he'
    exact ⟨matchGame_false_of_id_ne eff (effId gd') e' hi hne,
      matchGame_false_of_id_ne eff (effId gd') _ (gameApply_id gd' e') hne⟩
  | none =>
    rw [find?_append_last]
    have hnew : matchGame eff (gameApply gd' (gameTemplate gd')) = false :=
      matchGame_false_of_id_ne eff (effId gd') _ (gameApply_id gd' _) hne
    cases hf2 : s.find? (matchGame eff) <;> simp [hnew]

theorem gamesFold_find_frame_game (gs : List GameDesc) (eff : String)
    (hall : ∀ gd ∈ gs, effId gd ≠ eff) (s : List JObj) :
    (gs.foldl (fun s gd => gameStep gd s) s).find? (matchGame eff) =
      s.find? (matchGame eff) := by
  induction gs generalizing s with
  | nil => rfl
  | cons g rest ih =>
    rw [List.foldl_cons, ih (fun gd h => hall gd (List.mem_cons_of_mem _ h)),
      gameStep_find_frame_game g eff (hall g (List.mem_cons_self _ _)) s]

theorem gamesFold_find_track (gs : List GameDesc) (hnd : (gs.map effId).Nodup)
    (gd : GameDesc) (hgd : gd ∈ gs) (t : List JObj) :
    (gs.foldl (fun s g => gameStep g s) t).find? (matchGame (effId gd)) =
      some (gameApply gd ((t.find? (matchGame (effId gd))).getD (gameTemplate gd))) := by
  induction gs generalizing t with
  | nil => cases hgd
  | cons g rest ih =>
    have hnd2 : (effId g :: rest.map effId).Nodup := by simpa using hnd
    have hout : effId g ∉ rest.map effId := (List.nodup_cons.mp hnd2).1
    have hnd' : (rest.map effId).Nodup := (List.nodup_cons.mp hnd2).2
    rw [List.foldl_cons]
    by_cases heq : effId gd = effId g
    · have hgdg : gd = g := by
        rcases List.mem_cons.mp hgd with h | h
        · exact h
        · exact absurd (heq ▸ List.mem_map_of_mem effId h) hout
      subst hgdg
      rw [gamesFold_find_frame_game rest (effId gd)
        (fun gd' h' hx => hout (hx ▸ List.mem_map_of_mem effId h')) _,
        gameStep_find_self gd t]
    · have hmem : gd ∈ rest := by
        rcases List.mem_cons.mp hgd with h | h
        · exact absurd (h ▸ rfl) heq
        · exact h
      rw [ih hnd' hmem, gameStep_find_frame_game g (effId gd) (fun hx => heq hx.symm) t]

/-!
## Well-formedness preservation and candidate-set helpers
-/

theorem stateWF_modifyFirst (p : JObj → Bool) (f : JObj → JObj)
    (hf : ∀ e, KeysNodup e → KeysNodup (f e)) :
    ∀ s : List JObj, StateWF s → StateWF (modifyFirst p f s) := by
  intro s
  induction s with
  | nil => intro h; exact h
  | cons e rest ih =>
    intro h
    have hrest : StateWF rest := fun x hx => h x (List.mem_cons_of_mem _ hx)
    by_cases hp : p e = true
    · unfold modifyFirst
      rw [if_pos hp]
      intro e' he'
      rcases List.mem_cons.mp he' with rfl | hm
      · exact hf e (h e (List.mem_cons_self _ _))
      · exact h e' (List.mem_cons_of_mem _ hm)
    · unfold modifyFirst
      rw [if_neg hp]
      intro e' he'
      rcases List.mem_cons.mp he' with rfl | hm
      · exact h e' (List.mem_cons_self _ _)
      · exact ih hrest e' hm

theorem stateWF_nexusStep (u : Upstream) (c : Int) (s : List JObj) (h : StateWF s) :
    StateWF (nexusStep u c s) := by
  cases hT : entryTransform u c with
  | none => rw [nexusStep_of_transform_none u c s hT]; exact h
  | some T =>
    rw [nexusStep_of_transform_some u c s T hT]
    exact stateWF_modifyFirst _ _ (fun e he => entryTransform_keysNodup u c T hT e he) s h

theorem stateWF_nexusFold (u : Upstream) (cs : List Int) (s : List JObj) (h : StateWF s) :
    StateWF (cs.foldl (fun s c => nexusStep u c s) s) := by
  induction cs generalizing s with
  | nil => exact h
  | cons c rest ih => exact ih _ (stateWF_nexusStep u c s h)

theorem dedupFirst_go_nodup (l : List Int) :
    ∀ acc : List Int, acc.Nodup →
      (l.foldl (fun acc x => if x ∈ acc then acc else acc ++ [x]) acc).Nodup := by
  induction l with
  | nil => intro acc h; exact h
  | cons x rest ih =>
    intro acc h
    rw [List.foldl_cons]
    by_cases hx : x ∈ acc
    · rw [if_pos hx]; exact ih acc h
    · rw [if_neg hx]
      apply ih
      rw [List.nodup_append]
      refine ⟨h, List.nodup_singleton x, ?_⟩
      intro a ha hax
      rw [List.mem_singleton] at hax
      exact hx (hax ▸ ha)

theorem dedupFirst_nodup (l : List Int) : (dedupFirst l).Nodup :=
  dedupFirst_go_nodup l [] List.nodup_nil

theorem mem_dedupFirst_go (l : List Int) :
    ∀ (acc : List Int) (x : Int),
      x ∈ l.foldl (fun acc x => if x ∈ acc then acc else acc ++ [x]) acc ↔
        x ∈ acc ∨ x ∈ l := by
  induction l with
  | nil => intro acc x; simp
  | cons y rest ih =>
    intro acc x
    rw [List.foldl_cons]
    by_cases hy : y ∈ acc
    · rw [if_pos hy, ih]
      constructor
      · rintro (h | h)
        · exact Or.inl h
        · exact Or.inr (List.mem_cons_of_mem _ h)
      · rintro (h | h)
        · exact Or.inl h
        · rcases List.mem_cons.mp h with rfl | h'
          · exact Or.inl hy
          · exact Or.inr h'
    · rw [if_neg hy, ih]
      simp [List.mem_append, or_assoc]

theorem mem_dedupFirst (l : List Int) (x : Int) : x ∈ dedupFirst l ↔ x ∈ l := by
  unfold dedupFirst
  rw [mem_dedupFirst_go]
  simp

theorem mem_knownMods_of (s : List JObj) (e : JObj) (c : Int) (he : e ∈ s)
    (h : jget e "modId" = .num c) : c ∈ knownMods s := by
  unfold knownMods
  refine List.mem_filterMap.mpr ⟨e, he, ?_⟩
  rw [h]

/-!
## The run's final state is a fixed point of every step
-/

/-- Any refresh step applied to the final state of a run is the identity:
either the candidate matches no entry (and the step cannot append), or its
entry was already transformed during the run and the transformation is
idempotent. -/
theorem nexusStep_fix_final (u : Upstream) (hu : UpstreamWF u) (s0 : List JObj)
    (hwf : StateWF s0) (cs : List Int) (hnd : cs.Nodup)
    (hcs : ∀ (c : Int) (e : JObj), e ∈ s0 → jget e "modId" = JVal.num c → c ∈ cs)
    (gs : List GameDesc) (c : Int) :
    nexusStep u c
      (gs.foldl (fun s gd => gameStep gd s) (cs.foldl (fun s c' => nexusStep u c' s) s0)) =
      gs.foldl (fun s gd => gameStep gd s) (cs.foldl (fun s c' => nexusStep u c' s) s0) := by
  set s1 := cs.foldl (fun s c' => nexusStep u c' s) s0 with hs1
  set s2 := gs.foldl (fun s gd => gameStep gd s) s1 with hs2
  have hchain : s2.find? (matchMod c) = s1.find? (matchMod c) := by
    rw [hs2]
    exact gamesFold_find_frame_mod gs c s1
  cases hT : entryTransform u c with
  | none => exact nexusStep_of_transform_none u c s2 hT
  | some T =>
    rw [nexusStep_of_transform_some u c s2 T hT]
    cases hf2 : s2.find? (matchMod c) with
    | none => exact modifyFirst_of_find?_none _ _ _ hf2
    | some x =>
      cases hf0 : s0.find? (matchMod c) with
      | none =>
        exfalso
        have h1none : s1.find? (matchMod c) = none := by
          by_cases hc : c ∈ cs
          · rw [hs1, nexusFold_find_track u hu cs hnd c hc s0, hf0]
            simp [applyT, hT]
          · rw [hs1, nexusFold_find_frame u hu cs c hc s0, hf0]
        rw [hf2] at hchain
        rw [h1none] at hchain
        exact Option.noConfusion hchain
      | some e0 =>
        have he0mem : e0 ∈ s0 := List.mem_of_find?_eq_some hf0
        have he0match : matchMod c e0 = true := List.find?_some hf0
        have he0id : jget e0 "modId" = .num c := (matchMod_eq_true_iff _ _).mp he0match
        have hc : c ∈ cs := hcs c e0 he0mem he0id
        have h1f : s1.find? (matchMod c) = some (T e0) := by
          rw [hs1, nexusFold_find_track u hu cs hnd c hc s0, hf0]
          simp [applyT, hT]
        have h2f : s2.find? (matchMod c) = some (T e0) := by rw [hchain, h1f]
        rw [hf2] at h2f
        injection h2f with hx
        have hTT : T (T e0) = T e0 := entryTransform_idem u c T hT e0 (hwf e0 he0mem)
        apply modifyFirst_eq_self _ _ _ _ hf2
        rw [hx, hTT]

/-- Any bundled-game step applied to the final state of a run is the
identity: its entry exists in the final state (found or created during the
run) and re-running the assignments over it changes nothing. -/
theorem gameStep_fix_final (u : Upstream) (s0 : List JObj) (hwf : StateWF s0)
    (cs : List Int) (gs : List GameDesc) (hnd : (gs.map effId).Nodup)
    (gd : GameDesc) (hgd : gd ∈ gs) :
    gameStep gd
      (gs.foldl (fun s g => gameStep g s) (cs.foldl (fun s c => nexusStep u c s) s0)) =
      gs.foldl (fun s g => gameStep g s) (cs.foldl (fun s c => nexusStep u c s) s0) := by
  set t := cs.foldl (fun s c => nexusStep u c s) s0 with ht
  set s2 := gs.foldl (fun s g => gameStep g s) t with hs2
  have hwft : StateWF t := by
    rw [ht]
    exact stateWF_nexusFold u cs s0 hwf
  have htr : s2.find? (matchGame (effId gd)) =
      some (gameApply gd ((t.find? (matchGame (effId gd))).getD (gameTemplate gd))) := by
    rw [hs2]
    exact gamesFold_find_track gs hnd gd hgd t
  have hnodup : KeysNodup ((t.find? (matchGame (effId gd))).getD (gameTemplate gd)) := by
    cases hf : t.find? (matchGame (effId gd)) with
    | some e => exact hwft e (List.mem_of_find?_eq_some hf)
    | none => exact keysNodup_gameTemplate gd
  have hfix : gameApply gd (gameApply gd ((t.find? (matchGame (effId gd))).getD (gameTemplate gd))) =
      gameApply gd ((t.find? (matchGame (effId gd))).getD (gameTemplate gd)) :=
    applyAssigns_idem (gameAssigns gd) _ hnodup
  unfold gameStep
  rw [htr]
  exact modifyFirst_eq_self _ _ _ _ htr hfix

theorem runRefresh_extensions (u : Upstream) (dir : List GameDesc) (now : Int) (m : Manifest) :
    (runRefresh u dir now m).extensions =
      (gameListOf dir).foldl (fun s gd => gameStep gd s)
        ((dedupFirst (getUpdatesSince u now m.last_updated ++ knownMods m.extensions)).foldl
          (fun s c => nexusStep u c s) m.extensions) := rfl

theorem runRefresh_last_updated (u : Upstream) (dir : List GameDesc) (now : Int)
    (m : Manifest) : (runRefresh u dir now m).last_updated = now := rfl

/-!
## Claim theorems
-/

/-- Claim C3: every entry passed through the removal path keeps exactly the
keys `modId` and `fileId`, with their values unchanged, and loses every other
field (`removeNexusMod`). -/
theorem claim3_stub_invariant (e : JObj)
    (h1 : hasKey e "modId" = true) (h2 : hasKey e "fileId" = true) :
    (∀ k, k ∈ jkeys (removeNexusMod e) ↔ (k = "modId" ∨ k = "fileId")) ∧
    jget (removeNexusMod e) "modId" = jget e "modId" ∧
    jget (removeNexusMod e) "fileId" = jget e "fileId" := by
  have hiff := fun k => mem_jkeys_filter e (fun x => x == "modId" || x == "fileId") k
  refine ⟨?_, ?_, ?_⟩
  · intro k
    constructor
    · intro hmem
      have := ((hiff k).mp hmem).1
      simpa using this
    · intro hk
      apply (hiff k).mpr
      refine ⟨by simpa using hk, ?_⟩
      rcases hk with rfl | rfl
      · exact (hasKey_iff_mem _ _).mp h1
      · exact (hasKey_iff_mem _ _).mp h2
  · exact jget_filter_of_true e (fun x => x == "modId" || x == "fileId") (by simp)
  · exact jget_filter_of_true e (fun x => x == "modId" || x == "fileId") (by simp)

/-- Witness for C3: the spec's removal scenario entry. -/
theorem claim3_stub_invariant_witness :
    hasKey eC3 "modId" = true ∧ hasKey eC3 "fileId" = true ∧
    ((∀ k, k ∈ jkeys (removeNexusMod eC3) ↔ (k = "modId" ∨ k = "fileId")) ∧
     jget (removeNexusMod eC3) "modId" = jget eC3 "modId" ∧
     jget (removeNexusMod eC3) "fileId" = jget eC3 "fileId") :=
  ⟨rfl, rfl, claim3_stub_invariant eC3 rfl rfl⟩

/-- Claim C9: `normalizeManifestEntry` re-emits only the fourteen canonical
fields; `language`, `id`, `hide`, `gameId`, `github`, `githubRawPath` and
`dependencies` are always absent from the result. -/
theorem claim9_normalize_canonical_only (e : JObj) :
    (∀ k, k ∈ jkeys (normalizeManifestEntry e) → k ∈ getExpectedFieldOrder) ∧
    jget (normalizeManifestEntry e) "language" = .undef ∧
    jget (normalizeManifestEntry e) "id" = .undef ∧
    jget (normalizeManifestEntry e) "hide" = .undef ∧
    jget (normalizeManifestEntry e) "gameId" = .undef ∧
    jget (normalizeManifestEntry e) "github" = .undef ∧
    jget (normalizeManifestEntry e) "githubRawPath" = .undef ∧
    jget (normalizeManifestEntry e) "dependencies" = .undef := by
  refine ⟨?_, ?_, ?_, ?_, ?_, ?_, ?_, ?_⟩
  · intro k hk
    exact ((mem_jkeys_normFields e getExpectedFieldOrder k).mp hk).1
  all_goals exact jget_normFields_not_mem e _ (by decide)

/-- Witness for C9: a translation-style entry loses its `language` field. -/
theorem claim9_normalize_canonical_only_witness :
    jget (normalizeManifestEntry transC9) "language" = .undef ∧
    jget transC9 "language" = .str "en" :=
  ⟨(claim9_normalize_canonical_only transC9).2.1, rfl⟩

/-- Counterexample to claim C5: a tool entry produced by the single-item add
flow (`createManifestEntryForTool` sets `type = null`) is normalized with the
`type` key present and equal to `null`, not omitted. -/
theorem claim5_counterexample :
    hasKey (normalizeManifestEntry toolEntryC5) "type" = true ∧
    jget (normalizeManifestEntry toolEntryC5) "type" = .null :=
  ⟨rfl, rfl⟩

/-- Claim C5 (amended): `normalizeManifestEntry` omits the `type` key exactly
when the stored value is `undefined`; a tool entry produced by the single-item
add flow stores `type = null`, so its normalized form re-emits `type` as
`null`. -/
theorem claim5_amended :
    (∀ e : JObj, jget e "type" = .undef → hasKey (normalizeManifestEntry e) "type" = false) ∧
    (∀ (mi : ModInfo) (f : FileInfo) (t : ExtensionType),
      hasKey (normalizeManifestEntry (createManifestEntryForTool mi f t)) "type" = true ∧
      jget (normalizeManifestEntry (createManifestEntryForTool mi f t)) "type" = .null) := by
  constructor
  · intro e he
    by_contra hx
    have htrue : hasKey (normalizeManifestEntry e) "type" = true := by
      cases h : hasKey (normalizeManifestEntry e) "type"
      · exact absurd h hx
      · rfl
    have hmem := (hasKey_iff_mem _ _).mp htrue
    have := (mem_jkeys_normFields e getExpectedFieldOrder "type").mp hmem
    rw [he] at this
    simp [jsIsUndef] at this
  · intro mi f t
    have htype : jget (createManifestEntryForTool mi f t) "type" = .null := by
      unfold createManifestEntryForTool
      exact jget_jset_self _ _ _
    constructor
    · refine (hasKey_iff_mem _ _).mpr ?_
      refine (mem_jkeys_normFields _ getExpectedFieldOrder "type").mpr ⟨by decide, ?_⟩
      rw [htype]
      rfl
    · rw [show normalizeManifestEntry (createManifestEntryForTool mi f t) =
          normFields (createManifestEntryForTool mi f t) getExpectedFieldOrder from rfl,
        jget_normFields_mem _ _ (by decide) (by decide), htype]

/-- Witness for C5 (amended): concrete undefined-type and null-type entries. -/
theorem claim5_amended_witness :
    jget eC4 "type" = .undef ∧
    hasKey (normalizeManifestEntry eC4) "type" = false ∧
    jget (normalizeManifestEntry toolEntryC5) "type" = .null :=
  ⟨rfl, claim5_amended.1 eC4 rfl, (claim5_amended.2 miX fX .game).2⟩

/-- Claim C6: a main file is retained iff its decoded description carries no
`requires vortex` constraint or one of the two window bounds satisfies it;
the file constrained to `>=1.8.0 <2.0.0` is retained under the refresh flow's
`[1.8.0, 1.8.999]` window and excluded under `[1.6.0, 1.6.999]`.  The
capture follows the regex's real character class (the `=-^` range, no
literal `-`): `1.6 - 1.8` captures only `1.6` (excluded under the 1.8
window), `v2.0.0` is captured as an exact version (excluded), and
`version 1.2` is captured whole and is an invalid range (excluded). -/
theorem claim6_version_filter :
    (∀ (lo hi : String) (f : FileInfo),
        fileCompatWith lo hi f = true ↔
          vortexRequirementOf f.description = none ∨
            ∃ r, vortexRequirementOf f.description = some r ∧
              (Semver.satisfies lo r = true ∨ Semver.satisfies hi r = true)) ∧
    fileCompat fC6 = true ∧
    fileCompatWith "1.8.0" "1.8.999" fC6 = true ∧
    fileCompatWith "1.6.0" "1.6.999" fC6 = false ∧
    [fC6].filter (fileCompatWith "1.6.0" "1.6.999") = [] ∧
    [fC6].filter fileCompat = [fC6] ∧
    vortexRequirementOf fC6b.description = some "1.6" ∧
    fileCompatWith "1.8.0" "1.8.999" fC6b = false ∧
    vortexRequirementOf fC6c.description = some "v2.0.0" ∧
    fileCompatWith "1.8.0" "1.8.999" fC6c = false ∧
    vortexRequirementOf fC6d.description = some "version 1.2" ∧
    fileCompatWith "1.8.0" "1.8.999" fC6d = false := by
  refine ⟨?_, rfl, rfl, rfl, rfl, rfl, rfl, rfl, rfl, rfl, rfl, rfl⟩
  intro lo hi f
  unfold fileCompatWith
  cases h : vortexRequirementOf f.description with
  | none => simp
  | some r => simp [Bool.or_eq_true]

/-- For a non-empty list of retained files, `latestFile` returns an element
of the list attaining the greatest `file_id`. -/
theorem latestFile_spec (f0 : FileInfo) (fs : List FileInfo) :
    latestFile f0 fs ∈ f0 :: fs ∧
    ∀ f ∈ f0 :: fs, f.file_id ≤ (latestFile f0 fs).file_id := by
  induction fs generalizing f0 with
  | nil =>
    refine ⟨List.mem_cons_self _ _, ?_⟩
    intro f hf
    rcases List.mem_cons.mp hf with rfl | h
    · exact le_refl _
    · simp at h
  | cons g gs ih =>
    have hstep : latestFile f0 (g :: gs) =
        latestFile (if f0.file_id < g.file_id then g else f0) gs := rfl
    obtain ⟨hmem, hle⟩ := ih (if f0.file_id < g.file_id then g else f0)
    have hite1 : f0.file_id ≤ (if f0.file_id < g.file_id then g else f0).file_id := by
      by_cases hc : f0.file_id < g.file_id <;> simp [hc]
      exact le_of_lt hc
    have hite2 : g.file_id ≤ (if f0.file_id < g.file_id then g else f0).file_id := by
      by_cases hc : f0.file_id < g.file_id <;> simp [hc]
      exact le_of_not_lt hc
    have hhead := hle _ (List.mem_cons_self _ _)
    constructor
    · rw [hstep]
      rcases List.mem_cons.mp hmem with h | h
      · rw [h]
        by_cases hc : f0.file_id < g.file_id <;> simp [hc]
      · exact List.mem_cons_of_mem _ (List.mem_cons_of_mem _ h)
    · intro f hf
      rw [hstep]
      rcases List.mem_cons.mp hf with rfl | hf'
      · exact le_trans hite1 hhead
      rcases List.mem_cons.mp hf' with rfl | hf''
      · exact le_trans hite2 hhead
      · exact hle _ (List.mem_cons_of_mem _ hf'')

/-- Claim C8: both flows select the main file with the numerically highest
file id; with files 100 and 205 and no constraints, 205 is selected in the
refresh flow and in the single-item add flow. -/
theorem claim8_latest_selection :
    (∀ (f0 : FileInfo) (fs : List FileInfo),
        latestFile f0 fs ∈ f0 :: fs ∧
        ∀ f ∈ f0 :: fs, f.file_id ≤ (latestFile f0 fs).file_id) ∧
    latestFile f100 [f205] = f205 ∧
    ((nexusStepO uC8 598 [eC8]).1.map fun e => jget e "fileId") = [.num 205] ∧
    (nexusStepO uC8 598 [eC8]).2 = .updated ∧
    (match addProcessNexusMods uA8 envA8 [] with
      | .ok p => jget p.2 "fileId"
      | .error _ => .undef) = .num 205 :=
  ⟨latestFile_spec, rfl, rfl, rfl, rfl⟩

/-- Witness for the quantified part of C8 at the 100/205 pair. -/
theorem claim8_latest_selection_witness :
    f205 ∈ f100 :: [f205] ∧ f205.file_id ≤ (latestFile f100 [f205]).file_id ∧
    latestFile f100 [f205] ∈ f100 :: [f205] :=
  ⟨by simp, (claim8_latest_selection.1 f100 [f205]).2 f205 (by simp),
   (claim8_latest_selection.1 f100 [f205]).1⟩

/-- Claim C10: in the refresh flow a stub entry (name undefined) whose
refetched latest main file carries the stored fileId is left untouched —
descriptive fields are rewritten only when the fileId differs or the name is
defined — so a republished item with an unchanged main file stays a stub. -/
theorem claim10_stub_frame :
    (∀ (mi : ModInfo) (f : FileInfo) (e : JObj),
        jget e "fileId" = .num f.file_id → jget e "name" = .undef →
        updateEntry mi f e = e) ∧
    (∀ (u : Upstream) (c : Int) (s : List JObj) (mi : ModInfo) (p : String)
        (t : ExtensionType) (f : FileInfo) (e : JObj),
        u.modInfo c = some mi → mi.picture_url = some p → mi.status = "published" →
        CATEGORIES mi.category_id = some t → filteredFilesOf u c = [f] →
        s.find? (matchMod c) = some e →
        jget e "fileId" = .num f.file_id → jget e "name" = .undef →
        nexusStepO u c s = (s, .unchanged)) := by
  have hfix : ∀ (mi : ModInfo) (f : FileInfo) (e : JObj),
      jget e "fileId" = .num f.file_id → jget e "name" = .undef →
      updateEntry mi f e = e := by
    intro mi f e hf hn
    unfold updateEntry
    rw [hf, hn]
    simp [jsEqNum, jsIsUndef]
  refine ⟨hfix, ?_⟩
  intro u c s mi p t f e hmi hpic hstat hcat hff hfind hf hn
  have hlat : latestFile f [] = f := rfl
  simp only [nexusStepO, hmi, hpic, hstat, hcat, hff, hlat]
  rw [hfind]
  simp only [hf, jsEqNum]
  rw [modifyFirst_eq_self (matchMod c) (updateEntry mi f) s e hfind (hfix mi f e hf hn)]
  simp

/-- Witness for C10: the concrete stub with an unchanged latest file. -/
theorem claim10_stub_frame_witness :
    jget stubC10 "fileId" = .num fX.file_id ∧ jget stubC10 "name" = .undef ∧
    filteredFilesOf uC1 598 = [fX] ∧
    [stubC10].find? (matchMod 598) = some stubC10 ∧
    nexusStepO uC1 598 [stubC10] = ([stubC10], .unchanged) :=
  ⟨rfl, rfl, rfl, rfl,
   claim10_stub_frame.2 uC1 598 [stubC10] miX "https://pic" .game fX stubC10
     rfl rfl rfl rfl rfl rfl rfl rfl⟩

/-- Counterexample to claim C4: an entry whose `type` field is absent fails
the type check — `validateManifestEntry` records
"type must be a string or null" — whereas the claim says absence passes. -/
theorem claim4_counterexample :
    jget eC4 "type" = .undef ∧
    validateManifestEntry eC4 = (false, ["type must be a string or null"]) :=
  ⟨rfl, rfl⟩

/-- Claim C4 (amended): the type check records an error iff the stored type
is neither `null` nor a string — so an absent type fails, `null` passes, and
every string (whether or not it is in {game, theme, translation}) passes;
the cross-field rule records an error iff the type is the string "game" and
`gameName` is falsy. -/
theorem claim4_amended (e : JObj) :
    (jget e "type" = .undef → "type must be a string or null" ∈ (validateManifestEntry e).2) ∧
    ("type must be a string or null" ∈ (validateManifestEntry e).2 ↔
      (jsIsNull (jget e "type") = false ∧ jsTypeof (jget e "type") ≠ "string")) ∧
    ("game extensions must have a gameName" ∈ (validateManifestEntry e).2 ↔
      (jsEqStr (jget e "type") "game" = true ∧ jsFalsy (jget e "gameName") = true)) := by
  have h2 : "type must be a string or null" ∈ (validateManifestEntry e).2 ↔
      (jsIsNull (jget e "type") = false ∧ jsTypeof (jget e "type") ≠ "string") := by
    simp [validateManifestEntry, List.mem_append, mem_if_singleton, mem_if_lists,
      Bool.and_eq_true, bne_iff_ne, Bool.not_eq_true]
  have h3 : "game extensions must have a gameName" ∈ (validateManifestEntry e).2 ↔
      (jsEqStr (jget e "type") "game" = true ∧ jsFalsy (jget e "gameName") = true) := by
    simp [validateManifestEntry, List.mem_append, mem_if_singleton, mem_if_lists,
      Bool.and_eq_true, bne_iff_ne, Bool.not_eq_true]
  refine ⟨?_, h2, h3⟩
  intro he
  apply h2.mpr
  rw [he]
  constructor
  · rfl
  · intro hx
    simp [jsTypeof] at hx

/-- Witness for C4 (amended) at the absent-type entry. -/
theorem claim4_amended_witness :
    "type must be a string or null" ∈ (validateManifestEntry eC4).2 :=
  (claim4_amended eC4).1 rfl

/-- Counterexample to claim C1: in the refresh flow a candidate with no
existing entry that passes every check (published, image, game category, one
compatible main file) is only recorded for the notification (`added`); no
CatalogEntry is constructed or appended — the append is commented out in the
source — so the extensions list stays empty. -/
theorem claim1_counterexample :
    nexusStepO uC1 598 [] = ([], .added) ∧
    (runRefresh uC1 [] 100000000 { last_updated := 0, extensions := [] }).extensions = [] :=
  ⟨rfl, rfl⟩

/-- Claim C1 (amended): for a candidate with no existing entry whose metadata
fetch succeeds with a preview image, published status, recognized category
and a surviving main file, the refresh flow records outcome `added` (the mod
info is pushed to the notification list) and leaves the Manifest's extensions
list unchanged. -/
theorem claim1_amended (u : Upstream) (c : Int) (s : List JObj) (mi : ModInfo) (p : String)
    (t : ExtensionType) (f0 : FileInfo) (fs : List FileInfo)
    (hmi : u.modInfo c = some mi) (hpic : mi.picture_url = some p)
    (hstat : mi.status = "published") (hcat : CATEGORIES mi.category_id = some t)
    (hff : filteredFilesOf u c = f0 :: fs) (hnone : s.find? (matchMod c) = none) :
    nexusStepO u c s = (s, .added) := by
  simp only [nexusStepO, hmi, hpic, hstat, hcat, hff]
  rw [hnone]
  simp

/-- Witness for C1 (amended): the end-to-end scenario inputs. -/
theorem claim1_amended_witness :
    uC1.modInfo 598 = some miX ∧ miX.picture_url = some "https://pic" ∧
    miX.status = "published" ∧ CATEGORIES miX.category_id = some .game ∧
    filteredFilesOf uC1 598 = [fX] ∧ (List.find? (matchMod 598) [] : Option JObj) = none ∧
    nexusStepO uC1 598 [] = ([], .added) :=
  ⟨rfl, rfl, rfl, rfl, rfl, rfl,
   claim1_amended uC1 598 [] miX "https://pic" .game fX [] rfl rfl rfl rfl rfl rfl⟩

/-- A successful add-flow run presupposes that the supplied id had no entry:
the `.ok` branch is guarded by `find? = none`. -/
theorem addOk_no_existing (u : AddUpstream) (env : AddEnv) (exts : List JObj)
    (r : List JObj × JObj) (hok : addProcessNexusMods u env exts = .ok r) :
    exts.find? (matchMod env.modid) = none := by
  unfold addProcessNexusMods at hok
  split at hok
  · exact Except.noConfusion hok
  · split at hok
    · exact Except.noConfusion hok
    · split at hok
      · exact Except.noConfusion hok
      · split at hok
        · exact Except.noConfusion hok
        · split at hok
          · exact Except.noConfusion hok
          · split at hok
            · exact Except.noConfusion hok
            · assumption

/-- Claim C7: a single-item add whose modId is already present never
succeeds: the run cannot produce a written manifest (the entry list is
untouched), and when all upstream checks pass the outcome is precisely the
duplicate rejection. -/
theorem claim7_add_duplicate (u : AddUpstream) (env : AddEnv) (now : Int) (m : Manifest)
    (e : JObj) (hdup : m.extensions.find? (matchMod env.modid) = some e) :
    (∀ m', addRun u env now m ≠ .ok m') ∧
    (∀ (mi : ModInfo) (ety : ExtensionType) (f0 : FileInfo) (fs' : List FileInfo)
        (entry : JObj),
      u.modInfo env.modid = some mi → mi.status = "published" →
      CATEGORIES mi.category_id = some ety →
      (u.modFiles env.modid).filter (fun f => f.category_id == 1) = f0 :: fs' →
      buildNewEntry u env mi (latestFile f0 fs') ety = .ok entry →
      addProcessNexusMods u env m.extensions = .error .alreadyExists) := by
  constructor
  · intro m' hok
    unfold addRun at hok
    cases happ : addProcessNexusMods u env m.extensions with
    | error err => rw [happ] at hok; exact Except.noConfusion hok
    | ok r =>
      have := addOk_no_existing u env m.extensions r happ
      rw [hdup] at this
      exact Option.noConfusion this
  · intro mi ety f0 fs' entry hmi hstat hcat hfiles hbuild
    simp only [addProcessNexusMods, hmi, hstat, hcat, hfiles, hbuild]
    rw [hdup]
    simp

/-- Claim C2: with identical upstream data (same mod info, file lists and
bundled-game descriptors), running the refresh reconciliation twice in
succession leaves the extensions list of the second run equal — as the
ordered key/value representation, hence byte-for-byte as serialized JSON —
to that of the first run; only `last_updated` changes.  Hypotheses: the API
echoes the queried mod id, the manifest's entries carry no duplicate JSON
keys, and the bundled game folders have pairwise distinct effective ids. -/
theorem claim2_idempotence (u : Upstream) (dir : List GameDesc) (now1 now2 : Int)
    (m : Manifest) (hu : UpstreamWF u) (hwf : StateWF m.extensions)
    (hgd : ((gameListOf dir).map effId).Nodup) :
    (runRefresh u dir now2 (runRefresh u dir now1 m)).extensions =
      (runRefresh u dir now1 m).extensions := by
  rw [runRefresh_extensions u dir now2 (runRefresh u dir now1 m)]
  rw [runRefresh_last_updated]
  rw [runRefresh_extensions u dir now1 m]
  set s1 := (dedupFirst (getUpdatesSince u now1 m.last_updated ++
      knownMods m.extensions)).foldl (fun s c => nexusStep u c s) m.extensions with hs1
  set s2 := (gameListOf dir).foldl (fun s gd => gameStep gd s) s1 with hs2
  have hfixN : ∀ c : Int, nexusStep u c s2 = s2 := by
    intro c
    rw [hs2, hs1]
    exact nexusStep_fix_final u hu m.extensions hwf _ (dedupFirst_nodup _)
      (fun c' e he hm =>
        (mem_dedupFirst _ _).mpr (List.mem_append.mpr (Or.inr (mem_knownMods_of _ e c' he hm))))
      (gameListOf dir) c
  have h1 : (dedupFirst (getUpdatesSince u now2 now1 ++ knownMods s2)).foldl
      (fun s c => nexusStep u c s) s2 = s2 :=
    foldl_fix _ s2 _ (fun c _ => hfixN c)
  rw [h1]
  apply foldl_fix
  intro gd hgdmem
  rw [hs2, hs1]
  exact gameStep_fix_final u m.extensions hwf _ (gameListOf dir) hgd gd hgdmem

/-- Witness for C2: a concrete manifest, upstream and bundled-game list. -/
theorem claim2_idempotence_witness :
    UpstreamWF uC1 ∧ StateWF mC2.extensions ∧ ((gameListOf [gdC2]).map effId).Nodup ∧
    (runRefresh uC1 [gdC2] 100 (runRefresh uC1 [gdC2] 50 mC2)).extensions =
      (runRefresh uC1 [gdC2] 50 mC2).extensions := by
  have hu : UpstreamWF uC1 := by
    intro c mi h
    by_cases hc : c = 598
    · subst hc
      have h' : some miX = some mi := h
      injection h' with h2
      rw [← h2]
      rfl
    · rw [show uC1.modInfo c = (if c = 598 then some miX else none) from rfl,
        if_neg hc] at h
      exact Option.noConfusion h
  have hwf : StateWF mC2.extensions := by
    intro e he
    have he' : e ∈ [eC8] := he
    rw [List.mem_singleton] at he'
    subst he'
    show (jkeys eC8).Nodup
    decide
  exact ⟨hu, hwf, by decide,
    claim2_idempotence uC1 [gdC2] 50 100 mC2 hu hwf (by decide)⟩

/-- Witness for C7: adding modid 598 over a manifest that already tracks it. -/
theorem claim7_add_duplicate_witness :
    mC7.extensions.find? (matchMod envA8.modid) =
      some [("modId", JVal.num 598), ("fileId", JVal.num 100)] ∧
    addProcessNexusMods uA8 envA8 mC7.extensions = .error .alreadyExists ∧
    addRun uA8 envA8 5 mC7 ≠ .ok { last_updated := 5, extensions := mC7.extensions } :=
  ⟨rfl,
   (claim7_add_duplicate uA8 envA8 5 mC7 _ rfl).2 { miX with category_id := 13 } .theme
     f100 [f205] (createManifestEntryForTheme { miX with category_id := 13 }
       (latestFile f100 [f205]) .theme) rfl rfl rfl rfl rfl,
   (claim7_add_duplicate uA8 envA8 5 mC7 _ rfl).1 _⟩

end VortexBackend
